import Mathlib

/-!
# Verification of the FAISS-backed vector document store

Shallow embedding of `src/services/vector_service.py` (class `VectorService`):
text normalization (`_preprocess_text`), chunking (`_split_text`), the
document/metadata catalog, vector index, search (`search_similar`),
soft deletion (`delete_document`), and compaction (`rebuild_index`).

Modelling conventions:
* Python dicts (both the per-document metadata dict and the top-level
  `self.metadata` / `self.documents` / `self.id_to_index` maps) are modelled as
  insertion-ordered association lists with Python `dict` update semantics
  (updating an existing key keeps its position, new keys are appended).
* Embedding vectors are `List Int`; the embedder is a parameter
  `emb : String → Option (List Int)` where `none` models the backend raising.
  A batch `encode` call (`encodeAll`) fails as a whole if any item fails.
  FAISS float32 inner-product scores are modelled as exact `Int` dot products.
* `datetime.now().isoformat()` is threaded as an explicit `now : String`.
* Regexes in `_preprocess_text` are implemented character-exactly over the
  ASCII fragment (`\s`, `\w` restricted to their ASCII members), with Python
  `re` leftmost scanning, greedy quantifiers and backtracking semantics.
-/

/-- Values stored in a metadata dict (the Python code stores strings, ints and
the boolean deletion flag). -/
inductive MVal where
  | s (v : String)
  | i (v : Int)
  | b (v : Bool)
deriving DecidableEq

/-- A Python dict keyed by strings, as an insertion-ordered association list. -/
abbrev Dict := List (String × MVal)

/-- `d.get k` on a Python dict. -/
def alGet {α : Type} : List (String × α) → String → Option α
  | [], _ => none
  | (k', v) :: rest, k => if k' = k then some v else alGet rest k

/-- `k in d` on a Python dict. -/
def alHas {α : Type} : List (String × α) → String → Bool
  | [], _ => false
  | (k', _) :: rest, k => k' = k || alHas rest k

/-- `d[k] = v` on a Python dict: overwrite in place if present, else append. -/
def alSet {α : Type} : List (String × α) → String → α → List (String × α)
  | [], k, v => [(k, v)]
  | (k', v') :: rest, k, v =>
    if k' = k then (k, v) :: rest else (k', v') :: alSet rest k v

/-- `d.pop(k, None)` on a Python dict (the resulting map). -/
def alPop {α : Type} : List (String × α) → String → List (String × α)
  | [], _ => []
  | (k', v) :: rest, k => if k' = k then alPop rest k else (k', v) :: alPop rest k

/-- `d.get(k, dflt)` for an int-valued metadata field, as used for
`start_index` / `end_index` lookups (they always hold ints when present). -/
def intGetD (d : Dict) (k : String) (dflt : Int) : Int :=
  match alGet d k with
  | some (.i v) => v
  | _ => dflt

/-- Python truthiness of a metadata value, for `metadata.get("deleted", False)`. -/
def MVal.truthy : MVal → Bool
  | .s v => v ≠ ""
  | .i v => v ≠ 0
  | .b v => v

/-! ## Text normalization: `_preprocess_text`

Python (src/services/vector_service.py lines 93-101):
whitespace collapse, then URL removal, then e-mail removal, then `strip()`.
-/

/-- ASCII fragment of Python regex `\s` / `str.strip()` whitespace. -/
def isPySpace (c : Char) : Bool :=
  c = ' ' || c = '\t' || c = '\n' || c = '\r' || c = '\x0b' || c = '\x0c'

/-- `re.sub(r'\s+', ' ', text)`: every maximal whitespace run becomes one space.
The `Bool` flag records whether we are inside a run already emitted. -/
def collapseWSAux : Bool → List Char → List Char
  | _, [] => []
  | inWS, c :: cs =>
    if isPySpace c then
      if inWS then collapseWSAux true cs else ' ' :: collapseWSAux true cs
    else c :: collapseWSAux false cs

def collapseWS (cs : List Char) : List Char := collapseWSAux false cs

/-- Python `str.strip()` (ASCII whitespace fragment). -/
def pStrip (cs : List Char) : List Char :=
  ((cs.dropWhile isPySpace).reverse.dropWhile isPySpace).reverse

/-- Character class accepted by the URL regex body
`(?:[a-zA-Z]|[0-9]|[$-_@.&+]|[!*\(\),]|(?:%[0-9a-fA-F][0-9a-fA-F]))+`.
`[$-_@.&+]` is the codepoint range 0x24-0x5F (which already contains the
digits, `%`, and every char of `[!*\(\),]` except `!`), so the union is
0x24-0x5F, lowercase a-z, and `!`; the `%hh` alternative adds nothing since
`%` and hex digits are single members already. -/
def isUrlCh (c : Char) : Bool :=
  (0x24 ≤ c.toNat && c.toNat ≤ 0x5F) || (0x61 ≤ c.toNat && c.toNat ≤ 0x7A) ||
    c.toNat = 0x21

/-- Length of the match of `http[s]?://(?:...)+` starting exactly here, if any.
`[s]?` is greedy but `://` must follow, so at one position at most one of the
`https://` / `http://` forms applies. -/
def urlMatchLen (cs : List Char) : Option Nat :=
  match cs with
  | 'h' :: 't' :: 't' :: 'p' :: rest =>
    match rest with
    | 's' :: ':' :: '/' :: '/' :: r =>
      let run := (r.takeWhile isUrlCh).length
      if run = 0 then none else some (8 + run)
    | ':' :: '/' :: '/' :: r =>
      let run := (r.takeWhile isUrlCh).length
      if run = 0 then none else some (7 + run)
    | _ => none
  | _ => none

/-- `re.sub(pat, '', text)` scanning loop for a pattern with no lookbehind:
at each position try the pattern; on a match drop it and continue after it,
else emit the char.  All our matches have length ≥ 1, and the fuel (seeded
with the list length) dominates the number of characters consumed. -/
def scanSubFuel (f : List Char → Option Nat) : Nat → List Char → List Char
  | 0, _ => []
  | _, [] => []
  | fuel + 1, c :: cs =>
    match f (c :: cs) with
    | some n => scanSubFuel f fuel (cs.drop (n - 1))
    | none => c :: scanSubFuel f fuel cs

def removeURLs (cs : List Char) : List Char := scanSubFuel urlMatchLen cs.length cs

/-- ASCII fragment of Python regex `\w` (word character, for `\b`). -/
def isWordCh (c : Char) : Bool := c.isAlpha || c.isDigit || c = '_'

/-- `[A-Za-z0-9._%+-]` — local part of the e-mail regex. -/
def isLocalCh (c : Char) : Bool :=
  c.isAlpha || c.isDigit || c = '.' || c = '_' || c = '%' || c = '+' || c = '-'

/-- `[A-Za-z0-9.-]` — domain part of the e-mail regex. -/
def isDomCh (c : Char) : Bool := c.isAlpha || c.isDigit || c = '.' || c = '-'

/-- `[A-Z|a-z]` — the TLD class of the e-mail regex (`|` is a literal member). -/
def isTldCh (c : Char) : Bool := c.isAlpha || c = '|'

/-- Greedy `[A-Z|a-z]{2,}\b` matcher: given the text after the dot, try TLD
lengths from the maximal `isTldCh` run downward (argument seeds it), accepting
the first length ≥ 2 whose end sits on a `\b` word boundary. -/
def tryTld (rest : List Char) : Nat → Option Nat
  | 0 => none
  | 1 => none
  | l + 2 =>
    let lastW := match rest.get? (l + 1) with | some c => isWordCh c | none => false
    let nextW := match rest.get? (l + 2) with | some c => isWordCh c | none => false
    if lastW ≠ nextW then some (l + 2) else tryTld rest (l + 1)

/-- Greedy `[A-Za-z0-9.-]+\.[A-Z|a-z]{2,}\b` matcher on the text after `@`:
try domain-run lengths `j` from the maximal `isDomCh` run downward; after `j`
chars a literal `.` must follow, then the TLD part. Returns the total length
matched after the `@`. -/
def tryDomFrom (afterAt : List Char) : Nat → Option Nat
  | 0 => none
  | j + 1 =>
    match afterAt.drop (j + 1) with
    | '.' :: rest =>
      match tryTld rest (rest.takeWhile isTldCh).length with
      | some l => some ((j + 1) + 1 + l)
      | none => tryDomFrom afterAt j
    | _ => tryDomFrom afterAt j

/-- Length of the match of
`\b[A-Za-z0-9._%+-]+@[A-Za-z0-9.-]+\.[A-Z|a-z]{2,}\b`
starting exactly here, given the character preceding this position (`none` at
the string start).  The leading `\b` compares the word-ness of that character
with the first matched character.  The local-part `+` needs no backtracking
(its class excludes `@`), the domain part does (handled by `tryDomFrom`). -/
def emailMatchLen (prev : Option Char) (cs : List Char) : Option Nat :=
  match cs with
  | [] => none
  | c0 :: _ =>
    let wPrev := match prev with | some p => isWordCh p | none => false
    if wPrev = isWordCh c0 then none
    else
      let n1 := (cs.takeWhile isLocalCh).length
      if n1 = 0 then none
      else
        match cs.drop n1 with
        | '@' :: afterAt =>
          match tryDomFrom afterAt (afterAt.takeWhile isDomCh).length with
          | some n2 => some (n1 + 1 + n2)
          | none => none
        | _ => none

/-- `re.sub` scanning loop for a pattern whose match depends on the previous
character (because of the leading `\b`).  `re.sub` evaluates `\b` on the
original text, so after deleting a match the previous character becomes the
last character of the deleted region. -/
def scanSubBFuel (f : Option Char → List Char → Option Nat) :
    Nat → Option Char → List Char → List Char
  | 0, _, _ => []
  | _, _, [] => []
  | fuel + 1, prev, c :: cs =>
    match f prev (c :: cs) with
    | some n => scanSubBFuel f fuel (((c :: cs).take n).getLast?) (cs.drop (n - 1))
    | none => c :: scanSubBFuel f fuel (some c) cs

def removeEmails (cs : List Char) : List Char :=
  scanSubBFuel emailMatchLen cs.length none cs

/-- `VectorService._preprocess_text` (lines 93-101): collapse whitespace, then
remove URLs, then remove e-mail addresses, then `strip()`. -/
def preprocess (t : String) : String :=
  ⟨pStrip (removeEmails (removeURLs (collapseWS t.data)))⟩

/-! ## Chunking: `_split_text` (lines 103-130) -/

/-- Python `text.split('\n')`. -/
def splitOnNL : List Char → List (List Char)
  | [] => [[]]
  | c :: cs =>
    if c = '\n' then [] :: splitOnNL cs
    else
      match splitOnNL cs with
      | [] => [[c]]
      | h :: t => (c :: h) :: t

/-- The paragraph-accumulation loop of `_split_text`.  `cur` is
`current_chunk`; the token estimate `len(cur + p) / 4 > max_tokens` is the
exact condition `max_tokens * 4 < len(cur + p)` (`len/4` is exact in binary
floating point).  On closing a chunk the next one is seeded with the trailing
`overlap*4` characters; a lone over-long paragraph is never split. -/
def splitTextCore (maxTokens overlap : Nat) : List (List Char) → List Char → List (List Char)
  | [], cur => if cur ≠ [] then [pStrip cur] else []
  | p0 :: ps, cur =>
    let p := pStrip p0
    if p = [] then splitTextCore maxTokens overlap ps cur
    else if maxTokens * 4 < (cur ++ p).length then
      if cur ≠ [] then
        let ov := if overlap * 4 < cur.length then cur.drop (cur.length - overlap * 4) else cur
        pStrip cur :: splitTextCore maxTokens overlap ps (ov ++ '\n' :: p)
      else splitTextCore maxTokens overlap ps p
    else splitTextCore maxTokens overlap ps (if cur = [] then p else cur ++ '\n' :: p)

/-- `VectorService._split_text(text, max_tokens=512, overlap=50)`. -/
def split_text (t : String) (maxTokens : Nat := 512) (overlap : Nat := 50) : List String :=
  (splitTextCore maxTokens overlap (splitOnNL t.data) []).map (fun cs => ⟨cs⟩)

/-! ## Store state and operations (`VectorService`) -/

/-- An entry of `self.documents`:
`{"text": ..., "processed_text": ..., "chunks": ..., "chunk_count": ...}`. -/
structure DocData where
  text : String
  processed_text : String
  chunks : List String
  chunk_count : Nat
deriving DecidableEq

/-- In-memory state of `VectorService`: the FAISS index (one vector per
position), `self.metadata`, `self.documents` and `self.id_to_index`. -/
structure St where
  index : List (List Int)
  metadata : List (String × Dict)
  documents : List (String × DocData)
  id_to_index : List (String × Nat)
deriving DecidableEq

/-- Fresh state (`faiss.IndexFlatIP(dim)` and empty dicts). -/
def St.empty : St := ⟨[], [], [], []⟩

/-- `self.model_name` (constructor default). -/
def model_name : String := "all-MiniLM-L6-v2"

/-- `self.embeddings.encode(chunks)`: one batch call, all-or-nothing. -/
def encodeAll (emb : String → Option (List Int)) : List String → Option (List (List Int))
  | [] => some []
  | t :: ts =>
    match emb t, encodeAll emb ts with
    | some v, some vs => some (v :: vs)
    | _, _ => none

/-- Inner product of two vectors (FAISS `IndexFlatIP` score). -/
def dotProd (q v : List Int) : Int := ((q.zip v).map (fun p => p.1 * p.2)).sum

/-- Insert a `(score, position)` hit keeping scores descending, ties broken by
lower position (earlier insertion wins). -/
def insertHit (h : Int × Nat) : List (Int × Nat) → List (Int × Nat)
  | [] => [h]
  | x :: xs =>
    if h.1 > x.1 ∨ (h.1 = x.1 ∧ h.2 < x.2) then h :: x :: xs else x :: insertHit h xs

def sortHits (l : List (Int × Nat)) : List (Int × Nat) := l.foldr insertHit []

/-- `self.index.search(query_vector, n)`: the `n` best `(score, position)`
pairs, score descending, ties by lower position. -/
def index_search (index : List (List Int)) (q : List Int) (n : Nat) : List (Int × Nat) :=
  (sortHits (index.enum.map (fun p => (dotProd q p.2, p.1)))).take n

/-- The `doc_metadata.update({...})` of `add_document` (lines 162-170): the six
store-assigned keys are written over the caller's dict in source order. -/
def addedMeta (attrs : Dict) (docId : String) (nchunks startIdx : Nat)
    (now : String) : Dict :=
  alSet (alSet (alSet (alSet (alSet (alSet attrs
    "doc_id" (.s docId))
    "chunk_count" (.i nchunks))
    "start_index" (.i startIdx))
    "end_index" (.i ((startIdx : Int) + nchunks - 1)))
    "created_at" (.s now))
    "vector_model" (.s model_name)

/-- `VectorService.add_document(doc_id, text, metadata)` (lines 132-186).
Returns the new state and the `bool` result.  An existing id (tombstoned or
not) is a no-op returning `True`; an embedding failure is caught and returns
`False` with nothing mutated (the exception fires before any state update). -/
def add_document (emb : String → Option (List Int)) (st : St) (docId text : String)
    (mdata : Option Dict) (now : String) : St × Bool :=
  if alHas st.documents docId then (st, true)
  else
    let processed := preprocess text
    let chunks := split_text processed 512 50
    match encodeAll emb chunks with
    | none => (st, false)
    | some vectors =>
      let start_index := st.index.length
      let dd : DocData := ⟨text, processed, chunks, chunks.length⟩
      let dm := addedMeta (mdata.getD []) docId chunks.length start_index now
      let id2idx := (List.range chunks.length).foldl
        (fun m i => alSet m (docId ++ "_chunk_" ++ toString i) (start_index + i))
        st.id_to_index
      (⟨st.index ++ vectors, alSet st.metadata docId dm,
        alSet st.documents docId dd, id2idx⟩, true)

/-- `metadata.get(doc_id, {}).get("deleted", False)` is truthy. -/
def isDeletedIn (md : List (String × Dict)) (docId : String) : Bool :=
  match alGet ((alGet md docId).getD []) "deleted" with
  | some v => v.truthy
  | none => false

/-- `VectorService.delete_document(doc_id)` (lines 267-282): soft delete —
mark `deleted` / `deleted_at` in the metadata, vectors stay in the index. -/
def delete_document (st : St) (docId : String) (now : String) : St × Bool :=
  if alHas st.documents docId then
    let metadata' :=
      if alHas st.metadata docId then
        alSet st.metadata docId
          (alSet (alSet ((alGet st.metadata docId).getD [])
            "deleted" (.b true)) "deleted_at" (.s now))
      else st.metadata
    ({ st with metadata := metadata' }, true)
  else (st, false)

/-- `VectorService._find_doc_by_index(index)` (lines 234-241): linear scan of
`self.metadata` in insertion order for the first document whose
`[start_index, end_index]` range contains the position. -/
def find_doc_by_index (md : List (String × Dict)) (idx : Nat) : Option String :=
  match md with
  | [] => none
  | (docId, m) :: rest =>
    if intGetD m "start_index" (-1) ≤ (idx : Int) ∧
        (idx : Int) ≤ intGetD m "end_index" (-1) then some docId
    else find_doc_by_index rest idx

/-- `VectorService._get_chunk_content(doc_id, index)` (lines 243-253). -/
def get_chunk_content (st : St) (docId : String) (idx : Nat) : String :=
  let chunks := ((alGet st.documents docId).map (fun d => d.chunks)).getD []
  let s := intGetD ((alGet st.metadata docId).getD []) "start_index" 0
  let ci : Int := (idx : Int) - s
  if 0 ≤ ci ∧ ci < chunks.length then (chunks.get? ci.toNat).getD "" else ""

/-- One returned search result (lines 216-222). -/
structure SearchResult where
  doc_id : String
  score : Int
  content : String
  metadata : Dict
  chunk_hit : String
deriving DecidableEq

/-- The result-collection loop of `search_similar` (lines 200-227): walk hits,
drop below-threshold scores, resolve each position to its owning document
(`doc_id and doc_id not in seen_docs` — the empty id is falsy), emit at most
one result per document, stop once `k` results are emitted. -/
def search_loop (st : St) (k : Nat) (thr : Int) :
    List (Int × Nat) → List String → List SearchResult → List SearchResult
  | [], _, acc => acc
  | (score, idx) :: rest, seen, acc =>
    if score < thr then search_loop st k thr rest seen acc
    else
      match find_doc_by_index st.metadata idx with
      | some docId =>
        if docId ≠ "" ∧ docId ∉ seen then
          let res : SearchResult :=
            ⟨docId, score, ((alGet st.documents docId).map (fun d => d.text)).getD "",
              (alGet st.metadata docId).getD [], get_chunk_content st docId idx⟩
          let acc' := acc ++ [res]
          if k ≤ acc'.length then acc' else search_loop st k thr rest (docId :: seen) acc'
        else search_loop st k thr rest seen acc
      | none => search_loop st k thr rest seen acc

/-- The `try:` body of `search_similar(query, k, score_threshold)` (lines
188-228): empty index returns `[]` before embedding; a raising embedder makes
the whole body raise (`Except.error`). -/
def search_similar_try (emb : String → Option (List Int)) (st : St) (q : String)
    (k : Nat) (thr : Int) : Except Unit (List SearchResult) :=
  if st.index.length = 0 then .ok []
  else
    match emb q with
    | none => .error ()
    | some qv =>
      .ok (search_loop st k thr (index_search st.index qv (min (k * 2) st.index.length)) [] [])

/-- `VectorService.search_similar`: the `except Exception` handler turns any
failure into a normal empty result list (lines 230-232). -/
def search_similar (emb : String → Option (List Int)) (st : St) (q : String)
    (k : Nat) (thr : Int) : List SearchResult :=
  match search_similar_try emb st q k thr with
  | .ok r => r
  | .error _ => []

/-- `VectorService.get_document(doc_id)` (lines 255-265). -/
structure GetResult where
  doc_id : String
  content : String
  metadata : Dict
  chunks : List String
deriving DecidableEq

def get_document (st : St) (docId : String) : Option GetResult :=
  match alGet st.documents docId with
  | none => none
  | some dd => some ⟨docId, dd.text, (alGet st.metadata docId).getD [], dd.chunks⟩

/-! ## Compaction: `rebuild_index` (lines 314-362)

The Python method first materialises
`active_docs = [(doc_id, documents[doc_id], metadata[doc_id]) ...]`
(raising, with nothing mutated, if a non-deleted document id is missing from
`self.metadata`), then *resets* `self.index` and `self.id_to_index`, and loops.
Inside the loop, `metadata` is the very dict object stored in
`self.metadata[doc_id]`, so the in-place updates of `start_index` /
`end_index` and the `pop`s alias into `self.metadata`; `new_metadata` /
`new_documents` are swapped in only after the loop succeeds.  A failing
`encode` mid-loop therefore leaves a partially rebuilt index, a partial
`id_to_index`, and partially re-ranged metadata, while `self.documents`
is untouched. -/

structure RebuildAcc where
  index : List (List Int)
  new_metadata : List (String × Dict)
  new_documents : List (String × DocData)
  id_to_index : List (String × Nat)
  metadata : List (String × Dict)
deriving DecidableEq

/-- The per-document loop of `rebuild_index` (lines 331-349). -/
def rebuild_loop (emb : String → Option (List Int)) (acc : RebuildAcc) :
    List (String × DocData × Dict) → RebuildAcc × Bool
  | [] => (acc, true)
  | (docId, dd, m) :: rest =>
    match encodeAll emb dd.chunks with
    | none => (acc, false)
    | some vectors =>
      let start_index := acc.index.length
      let m' :=
        alPop (alPop (alSet (alSet m
          "start_index" (.i start_index))
          "end_index" (.i ((start_index : Int) + dd.chunks.length - 1)))
          "deleted") "deleted_at"
      let meta' := if alHas acc.metadata docId then alSet acc.metadata docId m' else acc.metadata
      let id2idx := (List.range dd.chunks.length).foldl
        (fun mm i => alSet mm (docId ++ "_chunk_" ++ toString i) (start_index + i))
        acc.id_to_index
      rebuild_loop emb
        ⟨acc.index ++ vectors, alSet acc.new_metadata docId m',
          alSet acc.new_documents docId dd, id2idx, meta'⟩ rest

/-- `VectorService.rebuild_index()`. -/
def rebuild_index (emb : String → Option (List Int)) (st : St) : St × Bool :=
  let activeIds := st.documents.filter (fun p => !isDeletedIn st.metadata p.1)
  if activeIds.all (fun p => alHas st.metadata p.1) then
    let active := activeIds.map (fun p => (p.1, p.2, (alGet st.metadata p.1).getD []))
    let r := rebuild_loop emb ⟨[], [], [], [], st.metadata⟩ active
    if r.2 then
      (⟨r.1.index, r.1.new_metadata, r.1.new_documents, r.1.id_to_index⟩, true)
    else
      (⟨r.1.index, r.1.metadata, st.documents, r.1.id_to_index⟩, false)
  else (st, false)

/-! ## Operation sequences -/

/-- One mutating call against the store. -/
inductive Op where
  | add (docId text : String) (mdata : Option Dict) (now : String)
  | del (docId : String) (now : String)
  | rebuild

def stepOp (emb : String → Option (List Int)) (st : St) : Op → St
  | .add id t m now => (add_document emb st id t m now).1
  | .del id now => (delete_document st id now).1
  | .rebuild => (rebuild_index emb st).1

/-- The state after a sequence of operations, starting from an empty store. -/
def run (emb : String → Option (List Int)) (ops : List Op) : St :=
  ops.foldl (stepOp emb) St.empty

/-- The embedding backend never raises. -/
def EmbTotal (emb : String → Option (List Int)) : Prop := ∀ s, (emb s).isSome

/-! ## Concrete fixtures used by witnesses and counterexamples -/

/-- An embedding backend that always succeeds with the vector `[1]`. -/
def embC : String → Option (List Int) := fun _ => some [1]

/-- An embedding backend that always raises. -/
def embN : String → Option (List Int) := fun _ => none

/-- A backend giving distinct vectors to the two fixture documents. -/
def embPair : String → Option (List Int) :=
  fun s => if s = "hello" then some [1] else some [2]

/-- A backend that succeeds on `"hello"` but raises on anything else —
it fails mid-way through a rebuild of `stTwo`. -/
def embHalf : String → Option (List Int) :=
  fun s => if s = "hello" then some [1] else none

/-- Store holding the single document `d1`. -/
def stOne : St := (add_document embC St.empty "d1" "hello" none "t0").1

/-- Store holding `d1` (vector `[1]`) and `d2` (vector `[2]`). -/
def stTwo : St :=
  (add_document embPair (add_document embPair St.empty "d1" "hello" none "t0").1
    "d2" "world" none "t1").1

/-- Every whitespace character of the list is a plain space. -/
def allWsSingle (cs : List Char) : Bool := cs.all (fun c => !isPySpace c || c = ' ')

/-- No two adjacent whitespace characters. -/
def noAdjWs : List Char → Bool
  | c :: d :: rest => !(isPySpace c && isPySpace d) && noAdjWs (d :: rest)
  | _ => true

/-- Head is not whitespace (vacuously true for `[]`). -/
def headNonWs : List Char → Bool
  | [] => true
  | c :: _ => !isPySpace c

/-- Word-ness of the character before the scan position
(`\b` treats the string edge as non-word). -/
def wOpt : Option Char → Bool
  | some c => isWordCh c
  | none => false

/-- The six metadata keys `add_document` assigns itself. -/
def storeReservedKeys : List String :=
  ["doc_id", "chunk_count", "start_index", "end_index", "created_at", "vector_model"]

/-- `metadata.get("start_index", -1)` as used by `_find_doc_by_index`. -/
def metaS (m : Dict) : Int := intGetD m "start_index" (-1)

/-- `metadata.get("end_index", -1)`. -/
def metaE (m : Dict) : Int := intGetD m "end_index" (-1)

/-- Position `p` lies in the document's recorded `[start_index, end_index]`. -/
def rangeMem (m : Dict) (p : Nat) : Prop := metaS m ≤ (p : Int) ∧ (p : Int) ≤ metaE m

/-- Two recorded ranges share no position. -/
def Disj (m1 m2 : Dict) : Prop := ∀ p : Nat, ¬(rangeMem m1 p ∧ rangeMem m2 p)

/-- The document's recorded range holds exactly its chunk embeddings in chunk
order: the stored chunks are the chunker's output on the normalized text, the
range starts at `s` and spans exactly `chunks.length` positions inside the
index, and position `s + i` holds the embedding of chunk `i`. -/
def docRangeOK (emb : String → Option (List Int)) (index : List (List Int))
    (documents : List (String × DocData)) (id : String) (m : Dict) : Prop :=
  ∃ dd : DocData, alGet documents id = some dd ∧
    dd.chunks = split_text (preprocess dd.text) 512 50 ∧
    dd.chunk_count = dd.chunks.length ∧
    dd.processed_text = preprocess dd.text ∧
    ∃ s : Nat, metaS m = (s : Int) ∧
      metaE m = (s : Int) + dd.chunks.length - 1 ∧
      s + dd.chunks.length ≤ index.length ∧
      ∀ i (hi : i < dd.chunks.length),
        ∃ v, index.get? (s + i) = some v ∧ emb (dd.chunks.get ⟨i, hi⟩) = some v

/-- The store invariant maintained by add/delete/rebuild. -/
def StoreInv (emb : String → Option (List Int)) (st : St) : Prop :=
  (∀ id, alHas st.metadata id = alHas st.documents id) ∧
  (st.metadata.map Prod.fst).Nodup ∧
  (st.documents.map Prod.fst).Nodup ∧
  (∀ p ∈ st.metadata, docRangeOK emb st.index st.documents p.1 p.2) ∧
  st.metadata.Pairwise (fun a b => Disj a.2 b.2) ∧
  (∀ pos : Nat, pos < st.index.length → ∃ q ∈ st.metadata, rangeMem q.2 pos)

/-- The listed documents occupy consecutive ranges starting at `n0`, in list
order (the contiguity produced by append and by rebuild). -/
def rangesSeq (md : List (String × Dict)) : Nat → List (String × DocData) → Prop
  | _, [] => True
  | n0, (id, dd) :: rest =>
    metaS ((alGet md id).getD []) = (n0 : Int) ∧
    metaE ((alGet md id).getD []) = (n0 : Int) + dd.chunks.length - 1 ∧
    rangesSeq md (n0 + dd.chunks.length) rest

/-- Invariant of the partially rebuilt catalog carried through the loop. -/
structure RebuildMid (emb : String → Option (List Int)) (acc : RebuildAcc) : Prop where
  ndKeys : (acc.new_metadata.map Prod.fst).Nodup
  keysEq : acc.new_documents.map Prod.fst = acc.new_metadata.map Prod.fst
  docsOK : ∀ p ∈ acc.new_metadata, docRangeOK emb acc.index acc.new_documents p.1 p.2
  disj : acc.new_metadata.Pairwise (fun a b => Disj a.2 b.2)
  cover : ∀ pos : Nat, pos < acc.index.length → ∃ q ∈ acc.new_metadata, rangeMem q.2 pos
  clean : ∀ p ∈ acc.new_metadata, alGet p.2 "deleted" = none

/-- The metadata dict written for a document by the rebuild loop: new range
`[L, L+n-1]`, tombstone keys popped. -/
def rebuildMeta (m : Dict) (L n : Nat) : Dict :=
  alPop (alPop (alSet (alSet m "start_index" (.i L)) "end_index"
    (.i ((L : Int) + n - 1))) "deleted") "deleted_at"

/-- Concatenation of the chunk lists of the documents handed to the loop. -/
def chunksFlat : List (String × DocData × Dict) → List String
  | [] => []
  | t :: rest => t.2.1.chunks ++ chunksFlat rest

/-- Concatenation of the chunk lists of a catalog slice. -/
def catChunks : List (String × DocData) → List String
  | [] => []
  | p :: rest => p.2.chunks ++ catChunks rest

/-! ## Association-list (Python dict) lemmas -/

theorem alGet_alSet_self {α : Type} (d : List (String × α)) (k : String) (v : α) :
    alGet (alSet d k v) k = some v := by
  induction d with
  | nil => simp [alGet, alSet]
  | cons p rest ih =>
    by_cases h : p.1 = k
    · simp [alSet, alGet, h]
    · simp [alSet, alGet, h, ih]

theorem alGet_alSet_ne {α : Type} (d : List (String × α)) {k k' : String} (v : α)
    (h : k' ≠ k) : alGet (alSet d k v) k' = alGet d k' := by
  have hk : k ≠ k' := Ne.symm h
  induction d with
  | nil => simp [alGet, alSet, hk]
  | cons p rest ih =>
    by_cases hp : p.1 = k
    · have hpk : p.1 ≠ k' := by rw [hp]; exact hk
      simp [alSet, alGet, hp, hk, hpk]
    · simp [alSet, alGet, hp, ih]

theorem alHas_iff_get {α : Type} (d : List (String × α)) (k : String) :
    alHas d k = true ↔ ∃ v, alGet d k = some v := by
  induction d with
  | nil => simp [alHas, alGet]
  | cons p rest ih =>
    by_cases h : p.1 = k <;> simp [alHas, alGet, h, ih]

theorem alHas_alSet {α : Type} (d : List (String × α)) (k k' : String) (v : α) :
    alHas (alSet d k v) k' = (decide (k = k') || alHas d k') := by
  induction d with
  | nil => simp [alHas, alSet]
  | cons p rest ih =>
    by_cases hp : p.1 = k
    · by_cases hq : k = k' <;> simp [alSet, alHas, hp, hq, Bool.or_assoc]
    · simp only [alSet, hp, if_false, alHas, ih]
      by_cases hq : p.1 = k' <;> by_cases hk : k = k' <;> simp [hq, hk]

theorem alSet_fresh {α : Type} (d : List (String × α)) (k : String) (v : α)
    (h : alHas d k = false) : alSet d k v = d ++ [(k, v)] := by
  induction d with
  | nil => simp [alSet]
  | cons p rest ih =>
    simp only [alHas, Bool.or_eq_false_iff, decide_eq_false_iff_not] at h
    simp [alSet, h.1, ih h.2]

theorem alGet_alPop_self {α : Type} (d : List (String × α)) (k : String) :
    alGet (alPop d k) k = none := by
  induction d with
  | nil => simp [alGet, alPop]
  | cons p rest ih =>
    by_cases h : p.1 = k
    · simp [alPop, h, ih]
    · simp [alPop, alGet, h, ih]

theorem alGet_alPop_ne {α : Type} (d : List (String × α)) {k k' : String}
    (h : k' ≠ k) : alGet (alPop d k) k' = alGet d k' := by
  induction d with
  | nil => simp [alGet, alPop]
  | cons p rest ih =>
    by_cases hp : p.1 = k
    · have hpk : p.1 ≠ k' := by rw [hp]; exact Ne.symm h
      simp [alPop, alGet, hp, hpk, Ne.symm h, ih]
    · simp [alPop, alGet, hp, ih]

theorem keys_alSet {α : Type} (d : List (String × α)) (k : String) (v : α) :
    (alSet d k v).map Prod.fst =
      if alHas d k then d.map Prod.fst else d.map Prod.fst ++ [k] := by
  induction d with
  | nil => simp [alSet, alHas]
  | cons p rest ih =>
    by_cases hp : p.1 = k
    · simp [alSet, alHas, hp]
    · simp only [alSet, hp, if_false, List.map_cons, alHas, ih, decide_eq_true_eq]
      by_cases hh : alHas rest k = true <;> simp [hp, hh]

theorem alGet_eq_none_of_not_has {α : Type} (d : List (String × α)) (k : String)
    (h : alHas d k = false) : alGet d k = none := by
  induction d with
  | nil => simp [alGet]
  | cons p rest ih =>
    simp only [alHas, Bool.or_eq_false_iff, decide_eq_false_iff_not] at h
    simp [alGet, h.1, ih h.2]

theorem alGet_mem {α : Type} (d : List (String × α)) (k : String) (v : α)
    (h : alGet d k = some v) : (k, v) ∈ d := by
  induction d with
  | nil => simp [alGet] at h
  | cons p rest ih =>
    by_cases hp : p.1 = k
    · simp only [alGet, hp, if_true, Option.some.injEq] at h
      have hpv : p = (k, v) := by
        cases p
        simp_all
      rw [hpv]
      exact List.mem_cons_self _ _
    · simp only [alGet, hp, if_false] at h
      exact List.mem_cons_of_mem _ (ih h)

/-! ## C5: idempotent upsert -/

/-- **C5** (confirmed): for an id already present in the store and not
tombstoned, `add_document` returns `True` and leaves the entire state
unchanged — a second add with the same id is a no-op.  (The early-exit in the
code in fact only tests membership in `self.documents`, so the conclusion
holds even without the not-tombstoned hypothesis.) -/
theorem add_document_existing_is_noop (emb : String → Option (List Int)) (st : St)
    (docId text : String) (mdata : Option Dict) (now : String)
    (hex : alHas st.documents docId = true)
    (hlive : isDeletedIn st.metadata docId = false) :
    add_document emb st docId text mdata now = (st, true) := by
  simp [add_document, hex]

/-- Witness for C5 at a concrete input: `d1` exists in `stOne`, is not
tombstoned, and re-adding it with different text returns the same state. -/
theorem add_document_existing_is_noop_witness :
    alHas stOne.documents "d1" = true ∧ isDeletedIn stOne.metadata "d1" = false ∧
      add_document embC stOne "d1" "changed text" none "t9" = (stOne, true) :=
  ⟨by decide, by decide,
    add_document_existing_is_noop embC stOne "d1" "changed text" none "t9"
      (by decide) (by decide)⟩

/-! ## C3: dedup, bound, threshold -/

/-- Invariant of the result-collection loop: if the accumulated ids are
distinct, recorded in `seen`, all scores meet the threshold, and there is
still room, then the final output has distinct ids, at most `k` entries, and
only above-threshold scores. -/
theorem search_loop_facts (st : St) (k : Nat) (thr : Int) :
    ∀ (cands : List (Int × Nat)) (seen : List String) (acc : List SearchResult),
      (acc.map SearchResult.doc_id).Nodup →
      (∀ r ∈ acc, r.doc_id ∈ seen) →
      (∀ r ∈ acc, thr ≤ r.score) →
      acc.length < k →
      ((search_loop st k thr cands seen acc).map SearchResult.doc_id).Nodup ∧
        (search_loop st k thr cands seen acc).length ≤ k ∧
        ∀ r ∈ search_loop st k thr cands seen acc, thr ≤ r.score := by
  intro cands
  induction cands with
  | nil =>
    intro seen acc hnd _ hthr hlen
    exact ⟨hnd, Nat.le_of_lt hlen, hthr⟩
  | cons hit rest ih =>
    intro seen acc hnd hseen hthr hlen
    obtain ⟨score, idx⟩ := hit
    by_cases hs : score < thr
    · simpa [search_loop, hs] using ih seen acc hnd hseen hthr hlen
    · simp only [search_loop, hs, if_false]
      split
      next docId hfd =>
        by_cases hnew : docId ≠ "" ∧ docId ∉ seen
        · rw [if_pos hnew]
          set res : SearchResult :=
            ⟨docId, score, ((alGet st.documents docId).map (fun d => d.text)).getD "",
              (alGet st.metadata docId).getD [], get_chunk_content st docId idx⟩ with hres
          have hlenacc : (acc ++ [res]).length = acc.length + 1 := by simp
          have hnd' : ((acc ++ [res]).map SearchResult.doc_id).Nodup := by
            rw [List.map_append, List.nodup_append]
            refine ⟨hnd, by simp, ?_⟩
            intro x hx
            simp only [List.map_cons, List.map_nil, List.mem_singleton]
            intro hx1
            rcases List.mem_map.mp hx with ⟨r, hr, hrid⟩
            have hxs : x ∈ seen := hrid ▸ hseen r hr
            rw [hx1] at hxs
            exact hnew.2 hxs
          have hthr' : ∀ r ∈ acc ++ [res], thr ≤ r.score := by
            intro r hr
            rcases List.mem_append.mp hr with hr | hr
            · exact hthr r hr
            · simp only [List.mem_singleton] at hr
              rw [hr]
              exact le_of_not_lt hs
          by_cases hfull : k ≤ (acc ++ [res]).length
          · rw [if_pos hfull]
            exact ⟨hnd', by omega, hthr'⟩
          · rw [if_neg hfull]
            refine ih (docId :: seen) (acc ++ [res]) hnd' ?_ hthr' (by omega)
            intro r hr
            rcases List.mem_append.mp hr with hr | hr
            · exact List.mem_cons_of_mem _ (hseen r hr)
            · simp only [List.mem_singleton] at hr
              rw [hr]
              exact List.mem_cons_self _ _
        · rw [if_neg hnew]
          exact ih seen acc hnd hseen hthr hlen
      next => exact ih seen acc hnd hseen hthr hlen

/-- **C3** (confirmed): a `search_similar` result list never contains two
entries with the same `doc_id`, has at most `k` entries, and every entry's
score is at least the threshold. -/
theorem search_similar_dedup_bound_threshold (emb : String → Option (List Int))
    (st : St) (q : String) (k : Nat) (thr : Int) :
    ((search_similar emb st q k thr).map SearchResult.doc_id).Nodup ∧
      (search_similar emb st q k thr).length ≤ k ∧
      ∀ r ∈ search_similar emb st q k thr, thr ≤ r.score := by
  unfold search_similar search_similar_try
  by_cases hempty : st.index.length = 0
  · simp [hempty]
  · simp only [hempty, if_false]
    match emb q with
    | none => simp
    | some qv =>
      simp only
      by_cases hk : k = 0
      · subst hk
        simp [index_search, search_loop]
      · exact search_loop_facts st k thr _ [] [] (by simp) (by simp) (by simp)
          (by simpa using Nat.pos_of_ne_zero hk)

/-! ## C6: behaviour on embedding failure / empty index -/

/-- **C6 counterexample**: the claim says an embedding-backend failure
propagates as an error aborting the call "rather than returning a normal
result".  On a non-empty store the `try:` body does raise, but the
`except Exception` handler swallows it and the caller receives the perfectly
normal value `[]` — indistinguishable from a no-match result. -/
theorem search_embed_failure_not_propagated :
    stOne.index.length = 1 ∧
      search_similar_try embN stOne "q" 5 0 = .error () ∧
      search_similar embN stOne "q" 5 0 = [] :=
  ⟨by decide, by rfl, by rfl⟩

/-- **C6 amended** (corrected): if the embedding backend fails while embedding
the query, `search_similar` catches the failure and returns the empty list (a
normal result) instead of propagating an error; an empty index likewise
returns the empty list. -/
theorem search_embed_failure_returns_empty (emb : String → Option (List Int))
    (st : St) (q : String) (k : Nat) (thr : Int) :
    (emb q = none → search_similar emb st q k thr = []) ∧
      (st.index.length = 0 → search_similar emb st q k thr = []) := by
  constructor
  · intro hq
    unfold search_similar search_similar_try
    by_cases hempty : st.index.length = 0
    · simp [hempty]
    · simp [hempty, hq]
  · intro hempty
    unfold search_similar search_similar_try
    simp [hempty]

/-- Witness for the amended C6 at concrete inputs: a failing backend on a
one-document store, and a successful backend on the empty store. -/
theorem search_embed_failure_returns_empty_witness :
    search_similar embN stOne "q" 5 0 = [] ∧ search_similar embC St.empty "q" 5 0 = [] :=
  ⟨(search_embed_failure_returns_empty embN stOne "q" 5 0).1 (by rfl),
   (search_embed_failure_returns_empty embC St.empty "q" 5 0).2 (by rfl)⟩

/-! ## C1: tombstone visibility in search -/

/-- **C1** (code bug): `delete_document("d1")` succeeds and marks the document
deleted, yet the very next `search_similar` still returns `d1`: the result
loop of `search_similar` never consults the `deleted` flag
(`_find_doc_by_index` scans all of `self.metadata`, tombstoned entries
included), contradicting the specified tombstone-visibility rule. -/
theorem deleted_doc_still_returned_by_search :
    (delete_document stOne "d1" "t1").2 = true ∧
      isDeletedIn (delete_document stOne "d1" "t1").1.metadata "d1" = true ∧
      ((search_similar embC (delete_document stOne "d1" "t1").1 "q" 5 0).map
        SearchResult.doc_id) = ["d1"] := by
  refine ⟨by decide, by decide, by decide⟩

/-! ## C2: rebuild atomicity -/

/-- **C2** (code bug): `rebuild_index` is not all-or-nothing.  On `stTwo`
(documents `d1`, `d2` with vectors `[1]`, `[2]`) a backend that raises on
`d2`'s chunks makes the rebuild fail (`False` returned), yet the in-memory
index was already replaced by the partially rebuilt one `[[1]]`: the code
resets `self.index` and `self.id_to_index` before the loop instead of
swapping after success. -/
theorem rebuild_failure_not_atomic :
    (rebuild_index embHalf stTwo).2 = false ∧
      stTwo.index = [[1], [2]] ∧
      (rebuild_index embHalf stTwo).1.index = [[1]] ∧
      (rebuild_index embHalf stTwo).1.index ≠ stTwo.index := by
  refine ⟨by decide, by decide, by decide, by decide⟩

/-! ## C7: properties of the text normalizer -/

theorem noAdjWs_cons_of (c : Char) (xs : List Char)
    (h1 : isPySpace c = false ∨ headNonWs xs = true) (h2 : noAdjWs xs = true) :
    noAdjWs (c :: xs) = true := by
  match xs with
  | [] => rfl
  | d :: rest =>
    simp only [noAdjWs, Bool.and_eq_true, Bool.not_eq_true']
    refine ⟨?_, h2⟩
    rcases h1 with h1 | h1
    · simp [h1]
    · simp only [headNonWs, Bool.not_eq_true'] at h1
      simp [h1]

theorem collapseWSAux_all_single : ∀ (cs : List Char) (b : Bool),
    allWsSingle (collapseWSAux b cs) = true := by
  intro cs
  induction cs with
  | nil => intro b; rfl
  | cons c rest ih =>
    intro b
    by_cases hc : isPySpace c = true
    · have ih' := ih true
      cases b <;> simpa [collapseWSAux, hc, allWsSingle] using ih'
    · simp only [Bool.not_eq_true] at hc
      have ih' := ih false
      cases b <;> simpa [collapseWSAux, hc, allWsSingle] using ih'

theorem collapseWSAux_true_headNonWs : ∀ cs : List Char,
    headNonWs (collapseWSAux true cs) = true := by
  intro cs
  induction cs with
  | nil => rfl
  | cons c rest ih =>
    by_cases hc : isPySpace c = true
    · simpa [collapseWSAux, hc] using ih
    · simp only [Bool.not_eq_true] at hc
      simp [collapseWSAux, hc, headNonWs]

theorem collapseWSAux_noAdj : ∀ (cs : List Char) (b : Bool),
    noAdjWs (collapseWSAux b cs) = true := by
  intro cs
  induction cs with
  | nil => intro b; rfl
  | cons c rest ih =>
    intro b
    by_cases hc : isPySpace c = true
    · cases b
      · simp only [collapseWSAux, hc, if_true]
        exact noAdjWs_cons_of _ _ (Or.inr (collapseWSAux_true_headNonWs rest)) (ih true)
      · simpa [collapseWSAux, hc] using ih true
    · simp only [Bool.not_eq_true] at hc
      cases b <;> simp only [collapseWSAux, hc, Bool.false_eq_true, if_false] <;>
        exact noAdjWs_cons_of _ _ (Or.inl hc) (ih false)

/-- `collapseWS` output: whitespace runs became single plain spaces. -/
theorem collapseWS_single_spaces (cs : List Char) :
    allWsSingle (collapseWS cs) = true ∧ noAdjWs (collapseWS cs) = true :=
  ⟨collapseWSAux_all_single cs false, collapseWSAux_noAdj cs false⟩

theorem takeWhile_app_all {α : Type} {p : α → Bool} :
    ∀ (xs ys : List α), (∀ c ∈ xs, p c = true) →
      (xs ++ ys).takeWhile p = xs ++ ys.takeWhile p := by
  intro xs
  induction xs with
  | nil => intro ys _; simp
  | cons x xs' ih =>
    intro ys h
    have hx : p x = true := h x (List.mem_cons_self _ _)
    simp only [List.cons_append, List.takeWhile_cons, hx, if_true]
    rw [ih ys (fun c hc => h c (List.mem_cons_of_mem _ hc))]

theorem takeWhile_nil_of_head {α : Type} {p : α → Bool} (ys : List α)
    (h : ∀ c, ys.head? = some c → p c = false) : ys.takeWhile p = [] := by
  match ys with
  | [] => rfl
  | c :: rest =>
    have := h c rfl
    simp [List.takeWhile_cons, this]

theorem scanSubFuel_nil (f : List Char → Option Nat) (fuel : Nat) :
    scanSubFuel f fuel [] = [] := by
  cases fuel <;> rfl

theorem isUrlCh_h : isUrlCh 'h' = true := by decide

theorem urlMatchLen_none_of_head (c : Char) (tail : List Char)
    (h : isUrlCh c = false) : urlMatchLen (c :: tail) = none := by
  have hc : c ≠ 'h' := by
    rintro rfl
    rw [isUrlCh_h] at h
    cases h
  unfold urlMatchLen
  split
  next heq => exact absurd (List.head_eq_of_cons_eq heq) hc
  next => rfl

theorem urlMatchLen_scheme (body b : List Char) (hne : body ≠ [])
    (hbody : ∀ c ∈ body, isUrlCh c = true)
    (hb : ∀ c, b.head? = some c → isUrlCh c = false) :
    urlMatchLen ('h' :: 't' :: 't' :: 'p' :: ':' :: '/' :: '/' :: (body ++ b)) =
      some (7 + body.length) := by
  have hrun : (body ++ b).takeWhile isUrlCh = body := by
    rw [takeWhile_app_all body b hbody, takeWhile_nil_of_head b hb, List.append_nil]
  have hlen : body.length ≠ 0 := by
    intro h0
    exact hne (List.eq_nil_of_length_eq_zero h0)
  simp [urlMatchLen, hrun, hlen]

theorem scan_url_all : ∀ (b : List Char) (fuel : Nat),
    (∀ c ∈ b, isUrlCh c = false) →
    scanSubFuel urlMatchLen (b.length + fuel) b = b := by
  intro b
  induction b with
  | nil => intro fuel _; exact scanSubFuel_nil _ _
  | cons c b' ih =>
    intro fuel h
    have hc : isUrlCh c = false := h c (List.mem_cons_self _ _)
    have hnone := urlMatchLen_none_of_head c b' hc
    have hfuel : (c :: b').length + fuel = (b'.length + fuel) + 1 := by
      simp only [List.length_cons]
      omega
    rw [hfuel]
    simp only [scanSubFuel, hnone]
    rw [ih fuel (fun x hx => h x (List.mem_cons_of_mem _ hx))]

theorem scan_url_skip : ∀ (a : List Char) (fuel : Nat) (rest : List Char),
    (∀ c ∈ a, isUrlCh c = false) →
    scanSubFuel urlMatchLen (a.length + fuel) (a ++ rest) =
      a ++ scanSubFuel urlMatchLen fuel rest := by
  intro a
  induction a with
  | nil => intro fuel rest _; simp
  | cons c a' ih =>
    intro fuel rest h
    have hc : isUrlCh c = false := h c (List.mem_cons_self _ _)
    have hnone := urlMatchLen_none_of_head c (a' ++ rest) hc
    have hfuel : (c :: a').length + fuel = (a'.length + fuel) + 1 := by
      simp only [List.length_cons]
      omega
    rw [hfuel]
    simp only [List.cons_append, List.append_eq, scanSubFuel, hnone]
    rw [ih fuel rest (fun x hx => h x (List.mem_cons_of_mem _ hx))]

/-- Any URL of the shape `http://` + a nonempty run of URL-body characters,
embedded in text containing no URL-body characters, is removed whole by the
URL pass (the two surrounding pieces survive verbatim). -/
theorem removeURLs_removes (a body b : List Char)
    (ha : ∀ c ∈ a, isUrlCh c = false) (hb : ∀ c ∈ b, isUrlCh c = false)
    (hne : body ≠ []) (hbody : ∀ c ∈ body, isUrlCh c = true) :
    removeURLs (a ++ ('h' :: 't' :: 't' :: 'p' :: ':' :: '/' :: '/' :: body) ++ b) =
      a ++ b := by
  have hb' : ∀ c, b.head? = some c → isUrlCh c = false := by
    intro c hc
    exact hb c (List.mem_of_mem_head? hc)
  have hassoc : a ++ ('h' :: 't' :: 't' :: 'p' :: ':' :: '/' :: '/' :: body) ++ b =
      a ++ ('h' :: 't' :: 't' :: 'p' :: ':' :: '/' :: '/' :: (body ++ b)) := by
    simp
  rw [removeURLs, hassoc]
  have hlen : (a ++ ('h' :: 't' :: 't' :: 'p' :: ':' :: '/' :: '/' :: (body ++ b))).length =
      a.length + (7 + body.length + b.length) := by
    simp only [List.length_append, List.length_cons]
    omega
  rw [hlen, scan_url_skip a _ _ ha]
  congr 1
  have hfuel : 7 + body.length + b.length = (6 + body.length + b.length) + 1 := by omega
  rw [hfuel]
  simp only [scanSubFuel, urlMatchLen_scheme body b hne hbody hb']
  have hdrop : ('t' :: 't' :: 'p' :: ':' :: '/' :: '/' :: (body ++ b)).drop
      (7 + body.length - 1) = b := by
    have h1 : 't' :: 't' :: 'p' :: ':' :: '/' :: '/' :: (body ++ b) =
        ('t' :: 't' :: 'p' :: ':' :: '/' :: '/' :: body) ++ b := by simp
    have h2 : 7 + body.length - 1 = ('t' :: 't' :: 'p' :: ':' :: '/' :: '/' :: body).length := by
      simp only [List.length_cons]
      omega
    rw [h1, h2, List.drop_left]
  rw [hdrop]
  have hfuel2 : 6 + body.length + b.length = b.length + (6 + body.length) := by omega
  rw [hfuel2, scan_url_all b (6 + body.length) hb]

theorem isWordCh_false_of_local_false {c : Char} (h : isLocalCh c = false) :
    isWordCh c = false := by
  simp only [isLocalCh, Bool.or_eq_false_iff] at h
  simp [isWordCh, h.1.1.1.1.1.1, h.1.1.1.1.1.2, h.1.1.1.2]

theorem ne_dot_of_local_false {c : Char} (h : isLocalCh c = false) : c ≠ '.' := by
  rintro rfl
  simp [isLocalCh] at h

theorem isTldCh_false_of_b {c : Char} (h1 : isLocalCh c = false) (h2 : c ≠ '|') :
    isTldCh c = false := by
  simp only [isLocalCh, Bool.or_eq_false_iff] at h1
  simp [isTldCh, h1.1.1.1.1.1.1, h2]

theorem isDomCh_false_of_b {c : Char} (h1 : isLocalCh c = false) : isDomCh c = false := by
  simp only [isLocalCh, Bool.or_eq_false_iff] at h1
  simp [isDomCh, h1.1.1.1.1.1.1, h1.1.1.1.1.1.2, h1.1.1.1.1.2, h1.2]

theorem isLocalCh_of_alphaNum {c : Char} (h : (c.isAlpha || c.isDigit) = true) :
    isLocalCh c = true := by
  rcases Bool.or_eq_true_iff.mp h with h | h <;> simp [isLocalCh, h]

theorem isWordCh_of_alphaNum {c : Char} (h : (c.isAlpha || c.isDigit) = true) :
    isWordCh c = true := by
  rcases Bool.or_eq_true_iff.mp h with h | h <;> simp [isWordCh, h]

theorem isDomCh_of_alphaNum {c : Char} (h : (c.isAlpha || c.isDigit) = true) :
    isDomCh c = true := by
  rcases Bool.or_eq_true_iff.mp h with h | h <;> simp [isDomCh, h]

theorem ne_dot_of_alphaNum {c : Char} (h : (c.isAlpha || c.isDigit) = true) : c ≠ '.' := by
  rintro rfl
  simp [Char.isAlpha, Char.isUpper, Char.isLower, Char.isDigit] at h

theorem isAlpha_of_isLower {c : Char} (h : c.isLower = true) : c.isAlpha = true := by
  simp [Char.isAlpha, h]

theorem isTldCh_of_isLower {c : Char} (h : c.isLower = true) : isTldCh c = true := by
  simp [isTldCh, isAlpha_of_isLower h]

theorem isDomCh_of_isLower {c : Char} (h : c.isLower = true) : isDomCh c = true := by
  simp [isDomCh, isAlpha_of_isLower h]

theorem isWordCh_of_isLower {c : Char} (h : c.isLower = true) : isWordCh c = true := by
  simp [isWordCh, isAlpha_of_isLower h]

theorem ne_dot_of_isLower {c : Char} (h : c.isLower = true) : c ≠ '.' := by
  rintro rfl
  simp [Char.isLower] at h

theorem emailMatchLen_none_of_head (prev : Option Char) (c : Char) (tail : List Char)
    (h : isLocalCh c = false) : emailMatchLen prev (c :: tail) = none := by
  simp [emailMatchLen, List.takeWhile_cons, h]

theorem scanSubBFuel_nil (f : Option Char → List Char → Option Nat)
    (fuel : Nat) (prev : Option Char) : scanSubBFuel f fuel prev [] = [] := by
  cases fuel <;> rfl

theorem scan_email_all : ∀ (b : List Char) (fuel : Nat) (prev : Option Char),
    (∀ c ∈ b, isLocalCh c = false) →
    scanSubBFuel emailMatchLen (b.length + fuel) prev b = b := by
  intro b
  induction b with
  | nil => intro fuel prev _; exact scanSubBFuel_nil _ _ _
  | cons c b' ih =>
    intro fuel prev h
    have hc : isLocalCh c = false := h c (List.mem_cons_self _ _)
    have hnone := emailMatchLen_none_of_head prev c b' hc
    have hfuel : (c :: b').length + fuel = (b'.length + fuel) + 1 := by
      simp only [List.length_cons]
      omega
    rw [hfuel]
    simp only [scanSubBFuel, hnone]
    rw [ih fuel (some c) (fun x hx => h x (List.mem_cons_of_mem _ hx))]

theorem scan_email_skip : ∀ (a : List Char) (fuel : Nat) (prev : Option Char)
    (rest : List Char),
    (∀ c ∈ a, isLocalCh c = false) → wOpt prev = false →
    ∃ prev', wOpt prev' = false ∧
      scanSubBFuel emailMatchLen (a.length + fuel) prev (a ++ rest) =
        a ++ scanSubBFuel emailMatchLen fuel prev' rest := by
  intro a
  induction a with
  | nil =>
    intro fuel prev rest _ hw
    exact ⟨prev, hw, by simp⟩
  | cons c a' ih =>
    intro fuel prev rest h hw
    have hc : isLocalCh c = false := h c (List.mem_cons_self _ _)
    have hnone := emailMatchLen_none_of_head prev c (a' ++ rest) hc
    obtain ⟨prev', hw', heq⟩ := ih fuel (some c) rest
      (fun x hx => h x (List.mem_cons_of_mem _ hx))
      (by simp [wOpt, isWordCh_false_of_local_false hc])
    refine ⟨prev', hw', ?_⟩
    have hfuel : (c :: a').length + fuel = (a'.length + fuel) + 1 := by
      simp only [List.length_cons]
      omega
    rw [hfuel]
    simp only [List.cons_append, List.append_eq, scanSubBFuel, hnone]
    rw [heq]

theorem tryTld_exact (tl b : List Char) (h2 : 2 ≤ tl.length)
    (htl : ∀ c ∈ tl, c.isLower = true)
    (hb : ∀ c ∈ b, isWordCh c = false) :
    tryTld (tl ++ b) tl.length = some tl.length := by
  obtain ⟨l, hl⟩ : ∃ l, tl.length = l + 2 := ⟨tl.length - 2, by omega⟩
  have hl1 : l + 1 < tl.length := by omega
  have hlast : (tl ++ b).get? (l + 1) = some (tl.get ⟨l + 1, hl1⟩) := by
    rw [List.get?_append (by omega), List.get?_eq_get hl1]
  have hwlast : isWordCh (tl.get ⟨l + 1, hl1⟩) = true :=
    isWordCh_of_isLower (htl _ (List.get_mem _ _ _))
  have hnext : (tl ++ b).get? (l + 2) = b.get? 0 := by
    rw [List.get?_append_right (by omega)]
    congr 1
    omega
  have hnextW : (match (tl ++ b).get? (l + 2) with
      | some c => isWordCh c | none => false) = false := by
    rw [hnext]
    match b with
    | [] => rfl
    | b0 :: b' => exact hb b0 (List.mem_cons_self _ _)
  rw [hl]
  simp only [tryTld, hlast, hwlast, hnextW]
  simp

theorem drop_add_split {α : Type} (l : List α) (n m : Nat) :
    l.drop (n + m) = (l.drop n).drop m := by
  rw [List.drop_drop, Nat.add_comm]

theorem tryDom_descend (d tl b : List Char) (hd : d ≠ [])
    (hdall : ∀ c ∈ d, isDomCh c = true ∧ c ≠ '.')
    (h2 : 2 ≤ tl.length) (htl : ∀ c ∈ tl, c.isLower = true)
    (hb : ∀ c ∈ b, isLocalCh c = false ∧ c ≠ '|') :
    ∀ i, i ≤ tl.length →
      tryDomFrom (d ++ '.' :: (tl ++ b)) (d.length + 1 + i) =
        some (d.length + 1 + tl.length) := by
  have hdropD : (d ++ '.' :: (tl ++ b)).drop d.length = '.' :: (tl ++ b) :=
    List.drop_left d ('.' :: (tl ++ b))
  have hdrop1 : (d ++ '.' :: (tl ++ b)).drop (d.length + 1) = tl ++ b := by
    have h1 : d ++ '.' :: (tl ++ b) = (d ++ ['.']) ++ (tl ++ b) := by simp
    have h2' : d.length + 1 = (d ++ ['.']).length := by simp
    rw [h1, h2', List.drop_left]
  have hne_dot : ∀ c ∈ tl ++ b, c ≠ '.' := by
    intro c hc
    rcases List.mem_append.mp hc with hc | hc
    · exact ne_dot_of_isLower (htl c hc)
    · exact ne_dot_of_local_false (hb c hc).1
  intro i
  induction i with
  | zero =>
    intro _
    have hpat : tryDomFrom (d ++ '.' :: (tl ++ b)) (d.length + 1) =
        tryDomFrom (d ++ '.' :: (tl ++ b)) d.length := by
      simp only [tryDomFrom, hdrop1]
      split
      next heq =>
        obtain ⟨t0, tl', rfl⟩ : ∃ t0 tl', tl = t0 :: tl' := by
          match tl, h2 with
          | t0 :: tl', _ => exact ⟨t0, tl', rfl⟩
        have := hne_dot t0 (List.mem_cons_self _ _)
        simp only [List.cons_append] at heq
        exact absurd (List.head_eq_of_cons_eq heq) this
      next => rfl
    rw [Nat.add_zero, hpat]
    obtain ⟨jd, hjd⟩ : ∃ jd, d.length = jd + 1 := by
      have : d.length ≠ 0 := fun h0 => hd (List.eq_nil_of_length_eq_zero h0)
      exact ⟨d.length - 1, by omega⟩
    have htake : (tl ++ b).takeWhile isTldCh = tl := by
      rw [takeWhile_app_all tl b (fun c hc => isTldCh_of_isLower (htl c hc)),
        takeWhile_nil_of_head b ?_, List.append_nil]
      intro c hc
      have hcmem := List.mem_of_mem_head? hc
      exact isTldCh_false_of_b (hb c hcmem).1 (hb c hcmem).2
    have htld : tryTld (tl ++ b) tl.length = some tl.length :=
      tryTld_exact tl b h2 htl
        (fun c hc => isWordCh_false_of_local_false (hb c hc).1)
    rw [hjd]
    simp only [tryDomFrom]
    rw [← hjd, hdropD]
    simp only [htake, htld]
  | succ i ih =>
    intro hle
    have harith : d.length + 1 + (i + 1) = (d.length + 1 + i) + 1 := by omega
    rw [harith]
    have hdropI : (d ++ '.' :: (tl ++ b)).drop (d.length + 1 + i + 1) =
        tl.drop (i + 1) ++ b := by
      have h1 : d.length + 1 + i + 1 = (d.length + 1) + (i + 1) := by omega
      rw [h1, drop_add_split, hdrop1, List.drop_append_eq_append_drop,
        Nat.sub_eq_zero_of_le (by omega), List.drop_zero]
    have hfall : tryDomFrom (d ++ '.' :: (tl ++ b)) ((d.length + 1 + i) + 1) =
        tryDomFrom (d ++ '.' :: (tl ++ b)) (d.length + 1 + i) := by
      simp only [tryDomFrom, hdropI]
      split
      next heq =>
        have hmem : '.' ∈ tl.drop (i + 1) ++ b := by
          rw [heq]
          exact List.mem_cons_self _ _
        rcases List.mem_append.mp hmem with hm | hm
        · exact absurd rfl (ne_dot_of_isLower (htl _ (List.mem_of_mem_drop hm)))
        · exact absurd rfl (ne_dot_of_local_false (hb _ hm).1)
      next => rfl
    rw [hfall]
    exact ih (by omega)

theorem wOpt_eq (prev : Option Char) :
    (match prev with | some p => isWordCh p | none => false) = wOpt prev := by
  cases prev <;> rfl

theorem emailMatchLen_full (prev : Option Char) (l d tl b : List Char)
    (hw : wOpt prev = false)
    (hl : l ≠ []) (hlall : ∀ c ∈ l, (c.isAlpha || c.isDigit) = true)
    (hd : d ≠ []) (hdall : ∀ c ∈ d, (c.isAlpha || c.isDigit) = true)
    (h2 : 2 ≤ tl.length) (htl : ∀ c ∈ tl, c.isLower = true)
    (hb : ∀ c ∈ b, isLocalCh c = false ∧ c ≠ '|') :
    emailMatchLen prev (l ++ '@' :: (d ++ '.' :: (tl ++ b))) =
      some (l.length + 1 + (d.length + 1 + tl.length)) := by
  obtain ⟨l0, l', rfl⟩ : ∃ l0 l', l = l0 :: l' := by
    match l, hl with
    | l0 :: l', _ => exact ⟨l0, l', rfl⟩
  have hw0 : isWordCh l0 = true := isWordCh_of_alphaNum (hlall l0 (List.mem_cons_self _ _))
  have htakeL : (l0 :: (l' ++ '@' :: (d ++ '.' :: (tl ++ b)))).takeWhile isLocalCh
      = l0 :: l' := by
    rw [← List.cons_append,
      takeWhile_app_all _ _ (fun c hc => isLocalCh_of_alphaNum (hlall c hc))]
    have hat : ('@' :: (d ++ '.' :: (tl ++ b))).takeWhile isLocalCh = [] := by
      rw [takeWhile_nil_of_head]
      intro c hc
      simp only [List.head?_cons, Option.some.injEq] at hc
      rw [← hc]
      decide
    rw [hat, List.append_nil]
  have hdropL : (l0 :: (l' ++ '@' :: (d ++ '.' :: (tl ++ b)))).drop (l'.length + 1)
      = '@' :: (d ++ '.' :: (tl ++ b)) := by
    have h1 : l0 :: (l' ++ '@' :: (d ++ '.' :: (tl ++ b)))
        = (l0 :: l') ++ '@' :: (d ++ '.' :: (tl ++ b)) := by simp
    have h2' : l'.length + 1 = (l0 :: l').length := by simp
    rw [h1, h2', List.drop_left]
  have htakeD : (d ++ '.' :: (tl ++ b)).takeWhile isDomCh = d ++ '.' :: tl := by
    have hform : d ++ '.' :: (tl ++ b) = (d ++ '.' :: tl) ++ b := by simp
    have hall : ∀ c ∈ d ++ '.' :: tl, isDomCh c = true := by
      intro c hc
      rcases List.mem_append.mp hc with hc | hc
      · exact isDomCh_of_alphaNum (hdall c hc)
      · rcases List.mem_cons.mp hc with rfl | hc
        · decide
        · exact isDomCh_of_isLower (htl c hc)
    have hhead : ∀ c, b.head? = some c → isDomCh c = false := fun c hc =>
      isDomCh_false_of_b (hb c (List.mem_of_mem_head? hc)).1
    rw [hform, takeWhile_app_all _ _ hall, takeWhile_nil_of_head b hhead, List.append_nil]
  have hdom : tryDomFrom (d ++ '.' :: (tl ++ b)) (d.length + 1 + tl.length)
      = some (d.length + 1 + tl.length) :=
    tryDom_descend d tl b hd
      (fun c hc => ⟨isDomCh_of_alphaNum (hdall c hc), ne_dot_of_alphaNum (hdall c hc)⟩)
      h2 htl hb tl.length (le_refl _)
  have hlenD : (d ++ '.' :: tl).length = d.length + 1 + tl.length := by
    simp only [List.length_append, List.length_cons]
    omega
  rw [List.cons_append]
  simp only [emailMatchLen, wOpt_eq, hw, hw0, htakeL, List.length_cons]
  rw [if_neg (by simp)]
  rw [hdropL]
  simp only [htakeD, hlenD, hdom]
  simp

/-- Any e-mail of the shape `local@domain.tld` — alphanumeric nonempty local
part and domain, lowercase TLD of length ≥ 2 — embedded between a piece with
no local-part characters and a piece with no local-part characters, dots or
pipes, is removed whole by the e-mail pass. -/
theorem removeEmails_removes (a l d tl b : List Char)
    (ha : ∀ c ∈ a, isLocalCh c = false)
    (hl : l ≠ []) (hlall : ∀ c ∈ l, (c.isAlpha || c.isDigit) = true)
    (hd : d ≠ []) (hdall : ∀ c ∈ d, (c.isAlpha || c.isDigit) = true)
    (h2 : 2 ≤ tl.length) (htl : ∀ c ∈ tl, c.isLower = true)
    (hb : ∀ c ∈ b, isLocalCh c = false ∧ c ≠ '|') :
    removeEmails (a ++ (l ++ '@' :: (d ++ '.' :: tl)) ++ b) = a ++ b := by
  obtain ⟨l0, l', rfl⟩ : ∃ l0 l', l = l0 :: l' := by
    match l, hl with
    | l0 :: l', _ => exact ⟨l0, l', rfl⟩
  have hassoc : a ++ ((l0 :: l') ++ '@' :: (d ++ '.' :: tl)) ++ b
      = a ++ (l0 :: (l' ++ '@' :: (d ++ '.' :: (tl ++ b)))) := by simp
  rw [removeEmails, hassoc]
  have hlen : (a ++ (l0 :: (l' ++ '@' :: (d ++ '.' :: (tl ++ b))))).length
      = a.length + ((l'.length + 1 + (d.length + 1 + tl.length) + b.length) + 1) := by
    simp only [List.length_append, List.length_cons]
    omega
  rw [hlen]
  obtain ⟨prev', hw', heq⟩ := scan_email_skip a _ none
    (l0 :: (l' ++ '@' :: (d ++ '.' :: (tl ++ b)))) ha rfl
  rw [heq]
  congr 1
  have hmatch := emailMatchLen_full prev' (l0 :: l') d tl b hw' (by simp) hlall hd hdall
    h2 htl hb
  simp only [List.cons_append] at hmatch
  simp only [scanSubBFuel, hmatch]
  have hdropE : (l' ++ '@' :: (d ++ '.' :: (tl ++ b))).drop
      ((l0 :: l').length + 1 + (d.length + 1 + tl.length) - 1) = b := by
    have hform : l' ++ '@' :: (d ++ '.' :: (tl ++ b)) = (l' ++ '@' :: (d ++ '.' :: tl)) ++ b := by
      simp
    have hidx : (l0 :: l').length + 1 + (d.length + 1 + tl.length) - 1
        = (l' ++ '@' :: (d ++ '.' :: tl)).length := by
      simp only [List.length_append, List.length_cons]
      omega
    rw [hform, hidx, List.drop_left]
  rw [hdropE]
  have hfuel : l'.length + 1 + (d.length + 1 + tl.length) + b.length
      = b.length + (l'.length + 1 + (d.length + 1 + tl.length)) := by omega
  rw [hfuel, scan_email_all b _ _ (fun c hc => (hb c hc).1)]

/-- **C7 counterexample**: `_preprocess_text` is not idempotent.  Whitespace
collapse runs BEFORE URL/e-mail removal, so deleting `http://x` from
`"a http://x b"` leaves the two spaces that surrounded it: the first pass
gives `"a  b"`, a second pass collapses them to `"a b"`. -/
theorem preprocess_not_idempotent :
    preprocess "a http://x b" = "a  b" ∧
      preprocess (preprocess "a http://x b") = "a b" ∧
      preprocess (preprocess "a http://x b") ≠ preprocess "a http://x b" := by
  refine ⟨by decide, by decide, by decide⟩

/-- **C7 amended** (corrected): `_preprocess_text` is total and pure; it
collapses every whitespace run to a single space and then removes URLs and
e-mail addresses (deleting each embedded match whole) before a final strip —
but, because collapsing precedes removal, it is NOT idempotent in general. -/
theorem preprocess_pipeline_properties :
    (∀ t : String,
      preprocess t = ⟨pStrip (removeEmails (removeURLs (collapseWS t.data)))⟩) ∧
    (∀ cs : List Char,
      allWsSingle (collapseWS cs) = true ∧ noAdjWs (collapseWS cs) = true) ∧
    (∀ a body b : List Char,
      (∀ c ∈ a, isUrlCh c = false) → (∀ c ∈ b, isUrlCh c = false) →
      body ≠ [] → (∀ c ∈ body, isUrlCh c = true) →
      removeURLs (a ++ ('h' :: 't' :: 't' :: 'p' :: ':' :: '/' :: '/' :: body) ++ b)
        = a ++ b) ∧
    (∀ a l d tl b : List Char,
      (∀ c ∈ a, isLocalCh c = false) →
      l ≠ [] → (∀ c ∈ l, (c.isAlpha || c.isDigit) = true) →
      d ≠ [] → (∀ c ∈ d, (c.isAlpha || c.isDigit) = true) →
      2 ≤ tl.length → (∀ c ∈ tl, c.isLower = true) →
      (∀ c ∈ b, isLocalCh c = false ∧ c ≠ '|') →
      removeEmails (a ++ (l ++ '@' :: (d ++ '.' :: tl)) ++ b) = a ++ b) ∧
    (∃ t : String, preprocess (preprocess t) ≠ preprocess t) :=
  ⟨fun _ => rfl, fun cs => collapseWS_single_spaces cs,
    removeURLs_removes, removeEmails_removes,
    ⟨"a http://x b", by decide⟩⟩

/-- Witness for the amended C7 at concrete inputs: the URL `http://x` between
spaces and the e-mail `me@ex.co` between spaces are each removed whole. -/
theorem preprocess_pipeline_properties_witness :
    preprocess "x" = ⟨pStrip (removeEmails (removeURLs (collapseWS "x".data)))⟩ ∧
      (allWsSingle (collapseWS "a  b".data) = true ∧
        noAdjWs (collapseWS "a  b".data) = true) ∧
      removeURLs ([' '] ++ ('h' :: 't' :: 't' :: 'p' :: ':' :: '/' :: '/' :: ['x']) ++ [' '])
        = [' '] ++ [' '] ∧
      removeEmails (([' ']) ++ ((['m', 'e']) ++ '@' :: ((['e', 'x']) ++ '.' :: (['c', 'o'])))
        ++ [' ']) = [' '] ++ [' '] :=
  ⟨preprocess_pipeline_properties.1 "x",
   preprocess_pipeline_properties.2.1 "a  b".data,
   preprocess_pipeline_properties.2.2.1 [' '] ['x'] [' ']
     (by decide) (by decide) (by decide) (by decide),
   preprocess_pipeline_properties.2.2.2.1 [' '] ['m', 'e'] ['e', 'x'] ['c', 'o'] [' ']
     (by decide) (by decide) (by decide) (by decide) (by decide) (by decide)
     (by decide) (by decide)⟩

/-! ## C9: chunking of two long paragraphs -/

theorem dropWhile_id_of_head {p : List Char}
    (h : ∀ c, p.head? = some c → isPySpace c = false) :
    p.dropWhile isPySpace = p := by
  match p with
  | [] => rfl
  | c :: rest =>
    have := h c rfl
    simp [List.dropWhile_cons, this]

theorem pStrip_id_of_ends {p : List Char}
    (h1 : ∀ c, p.head? = some c → isPySpace c = false)
    (h2 : ∀ c, p.getLast? = some c → isPySpace c = false) :
    pStrip p = p := by
  unfold pStrip
  rw [dropWhile_id_of_head h1, dropWhile_id_of_head ?_, List.reverse_reverse]
  intro c hc
  rw [List.head?_reverse] at hc
  exact h2 c hc

theorem pStrip_id_of_all {p : List Char}
    (h : ∀ c ∈ p, isPySpace c = false) : pStrip p = p := by
  refine pStrip_id_of_ends ?_ ?_
  · intro c hc
    exact h c (List.mem_of_mem_head? hc)
  · intro c hc
    exact h c (List.mem_of_getLast?_eq_some hc)

theorem splitOnNL_no_nl : ∀ (p : List Char), (∀ c ∈ p, c ≠ '\n') →
    splitOnNL p = [p] := by
  intro p
  induction p with
  | nil => intro _; rfl
  | cons c rest ih =>
    intro h
    have hc : c ≠ '\n' := h c (List.mem_cons_self _ _)
    simp only [splitOnNL, hc, if_false]
    rw [ih (fun x hx => h x (List.mem_cons_of_mem _ hx))]

theorem splitOnNL_two (p1 p2 : List Char)
    (h1 : ∀ c ∈ p1, c ≠ '\n') (h2 : ∀ c ∈ p2, c ≠ '\n') :
    splitOnNL (p1 ++ '\n' :: p2) = [p1, p2] := by
  induction p1 with
  | nil =>
    have hnl : splitOnNL ('\n' :: p2) = [] :: splitOnNL p2 := by
      simp [splitOnNL]
    simp only [List.nil_append, hnl, splitOnNL_no_nl p2 h2]
  | cons c p1' ih =>
    have hc : c ≠ '\n' := h1 c (List.mem_cons_self _ _)
    simp only [List.cons_append, List.append_eq, splitOnNL, hc, if_false]
    rw [ih (fun x hx => h1 x (List.mem_cons_of_mem _ hx))]

/-- One-step unfolding of `splitTextCore` on a cons (definitional). -/
theorem splitTextCore_cons (mt ov : Nat) (p0 : List Char) (ps : List (List Char))
    (cur : List Char) :
    splitTextCore mt ov (p0 :: ps) cur =
      (if pStrip p0 = [] then splitTextCore mt ov ps cur
       else if mt * 4 < (cur ++ pStrip p0).length then
         if cur ≠ [] then
           pStrip cur :: splitTextCore mt ov ps
             ((if ov * 4 < cur.length then cur.drop (cur.length - ov * 4) else cur)
               ++ '\n' :: pStrip p0)
         else splitTextCore mt ov ps (pStrip p0)
       else splitTextCore mt ov ps (if cur = [] then pStrip p0 else cur ++ '\n' :: pStrip p0)) :=
  rfl

/-- One-step unfolding of `splitTextCore` on nil (definitional). -/
theorem splitTextCore_nil (mt ov : Nat) (cur : List Char) :
    splitTextCore mt ov [] cur = if cur ≠ [] then [pStrip cur] else [] := rfl

/-- Core of the two-paragraph scenario: two nonempty whitespace-free
paragraphs whose combined length exceeds `512 * 4` characters produce exactly
two chunks, the second seeded with the trailing `50 * 4 = 200` characters of
the first. -/
theorem splitTextCore_two_paragraphs (p1 p2 : List Char)
    (h1ne : p1 ≠ []) (h2ne : p2 ≠ [])
    (h1 : ∀ c ∈ p1, isPySpace c = false) (h2 : ∀ c ∈ p2, isPySpace c = false)
    (hbig : 2048 < p1.length + p2.length) (hover : 200 < p1.length) :
    splitTextCore 512 50 (splitOnNL (p1 ++ '\n' :: p2)) []
      = [p1, p1.drop (p1.length - 200) ++ '\n' :: p2] := by
  have hnl1 : ∀ c ∈ p1, c ≠ '\n' := by
    intro c hc hcn
    have := h1 c hc
    rw [hcn] at this
    simp [isPySpace] at this
  have hnl2 : ∀ c ∈ p2, c ≠ '\n' := by
    intro c hc hcn
    have := h2 c hc
    rw [hcn] at this
    simp [isPySpace] at this
  rw [splitOnNL_two p1 p2 hnl1 hnl2]
  have hs1 : pStrip p1 = p1 := pStrip_id_of_all h1
  have hs2 : pStrip p2 = p2 := pStrip_id_of_all h2
  have hbig2 : 512 * 4 < (p1 ++ p2).length := by
    simp only [List.length_append]
    omega
  have hov : (if 50 * 4 < p1.length then p1.drop (p1.length - 50 * 4) else p1)
      = p1.drop (p1.length - 200) := by
    rw [if_pos (by omega)]
  have hcurne : (p1.drop (p1.length - 200)) ++ '\n' :: p2 ≠ [] := by
    simp
  have hovne : p1.drop (p1.length - 200) ≠ [] := by
    intro h0
    have := congrArg List.length h0
    simp only [List.length_drop, List.length_nil] at this
    omega
  have hstrip3 : pStrip ((p1.drop (p1.length - 200)) ++ '\n' :: p2)
      = (p1.drop (p1.length - 200)) ++ '\n' :: p2 := by
    refine pStrip_id_of_ends ?_ ?_
    · intro c hc
      rw [List.head?_append_of_ne_nil _ hovne] at hc
      exact h1 c (List.mem_of_mem_drop (List.mem_of_mem_head? hc))
    · intro c hc
      rw [List.getLast?_append_of_ne_nil _ (by simp : ('\n' :: p2 : List Char) ≠ [])] at hc
      have hcm := List.mem_of_getLast?_eq_some hc
      rcases List.mem_cons.mp hcm with rfl | hcm
      · have hl2 : ('\n' :: p2).getLast? = p2.getLast? := by
          match p2, h2ne with
          | q :: p2', _ => rfl
        rw [hl2] at hc
        exact h2 _ (List.mem_of_getLast?_eq_some hc)
      · exact h2 c hcm
  have hcont : splitTextCore 512 50 [p2] p1
      = [p1, p1.drop (p1.length - 200) ++ '\n' :: p2] := by
    rw [splitTextCore_cons]
    simp only [hs2]
    rw [if_neg h2ne, if_pos hbig2, if_pos h1ne, hov, hs1, splitTextCore_nil,
      if_pos hcurne, hstrip3]
  rw [splitTextCore_cons]
  simp only [hs1]
  rw [if_neg h1ne]
  by_cases hbig1 : 512 * 4 < (([] : List Char) ++ p1).length
  · rw [if_pos hbig1, if_neg (by simp)]
    exact hcont
  · rw [if_neg hbig1]
    exact hcont

/-- **C9 counterexample**: two paragraphs of 4100 characters each (estimated
8200/4 = 2050 tokens combined), `maxTokens=512`, `overlap=50`: `_split_text`
emits exactly 2 chunks, not ≥ 4 — a paragraph longer than `maxTokens` is
never split, so the claimed ≥ 4 chunks is unreachable. -/
theorem two_paragraphs_2050_tokens_give_two_chunks :
    (split_text ⟨List.replicate 4100 'a' ++ '\n' :: List.replicate 4100 'b'⟩ 512 50).length
        = 2 ∧
      ¬(4 ≤ (split_text
          ⟨List.replicate 4100 'a' ++ '\n' :: List.replicate 4100 'b'⟩ 512 50).length) := by
  have h := splitTextCore_two_paragraphs (List.replicate 4100 'a') (List.replicate 4100 'b')
    (List.length_pos.mp (by rw [List.length_replicate]; omega))
    (List.length_pos.mp (by rw [List.length_replicate]; omega))
    (fun c hc => by rw [List.eq_of_mem_replicate hc]; rfl)
    (fun c hc => by rw [List.eq_of_mem_replicate hc]; rfl)
    (by rw [List.length_replicate, List.length_replicate]; omega)
    (by rw [List.length_replicate]; omega)
  have hlen : (split_text ⟨List.replicate 4100 'a' ++ '\n' :: List.replicate 4100 'b'⟩
      512 50).length = 2 := by
    unfold split_text
    rw [show (⟨List.replicate 4100 'a' ++ '\n' :: List.replicate 4100 'b'⟩ : String).data
        = List.replicate 4100 'a' ++ '\n' :: List.replicate 4100 'b' from rfl, h]
    rfl
  exact ⟨hlen, by omega⟩

/-- **C9 amended** (corrected): for any two nonempty single-line
whitespace-free paragraphs totalling more than 2048 characters (combined
estimated token count above `maxTokens`; the scenario's ~2050 estimated tokens
= ~8200 characters qualifies), with `maxTokens=512` and `overlap=50`,
`_split_text` emits exactly TWO chunks — the first paragraph unsplit, then one
chunk for the second paragraph — and the chunk after the first begins with the
trailing `overlap*4 = 200` characters of the preceding chunk.  (The claimed
"at least 4 chunks" is unattainable: the chunker never splits inside a
paragraph.) -/
theorem split_text_two_long_paragraphs (p1 p2 : List Char)
    (h1ne : p1 ≠ []) (h2ne : p2 ≠ [])
    (h1 : ∀ c ∈ p1, isPySpace c = false) (h2 : ∀ c ∈ p2, isPySpace c = false)
    (hbig : 2048 < p1.length + p2.length) (hover : 200 < p1.length) :
    split_text ⟨p1 ++ '\n' :: p2⟩ 512 50
        = [⟨p1⟩, ⟨p1.drop (p1.length - 200) ++ '\n' :: p2⟩] ∧
      (p1.drop (p1.length - 200) ++ '\n' :: p2).take 200
        = p1.drop (p1.length - 200) := by
  constructor
  · unfold split_text
    rw [show (⟨p1 ++ '\n' :: p2⟩ : String).data = p1 ++ '\n' :: p2 from rfl,
      splitTextCore_two_paragraphs p1 p2 h1ne h2ne h1 h2 hbig hover]
    rfl
  · have hlen : (p1.drop (p1.length - 200)).length = 200 := by
      rw [List.length_drop]
      omega
    exact List.take_left' hlen

/-- Witness for the amended C9 at the concrete 4100+4100-character input. -/
theorem split_text_two_long_paragraphs_witness :
    split_text ⟨List.replicate 4100 'a' ++ '\n' :: List.replicate 4100 'b'⟩ 512 50
        = [⟨List.replicate 4100 'a'⟩,
           ⟨(List.replicate 4100 'a').drop ((List.replicate 4100 'a').length - 200)
             ++ '\n' :: List.replicate 4100 'b'⟩] ∧
      ((List.replicate 4100 'a').drop ((List.replicate 4100 'a').length - 200)
          ++ '\n' :: List.replicate 4100 'b').take 200
        = (List.replicate 4100 'a').drop ((List.replicate 4100 'a').length - 200) :=
  split_text_two_long_paragraphs (List.replicate 4100 'a') (List.replicate 4100 'b')
    (List.length_pos.mp (by rw [List.length_replicate]; omega))
    (List.length_pos.mp (by rw [List.length_replicate]; omega))
    (fun c hc => by rw [List.eq_of_mem_replicate hc]; rfl)
    (fun c hc => by rw [List.eq_of_mem_replicate hc]; rfl)
    (by rw [List.length_replicate, List.length_replicate]; omega)
    (by rw [List.length_replicate]; omega)

/-! ## C10: store-assigned metadata keys vs caller attributes -/

/-- Results emitted by the search loop carry exactly the stored metadata dict
of their owning document. -/
theorem search_loop_metadata (st : St) (k : Nat) (thr : Int) :
    ∀ (cands : List (Int × Nat)) (seen : List String) (acc : List SearchResult),
      (∀ r ∈ acc, r.metadata = (alGet st.metadata r.doc_id).getD []) →
      ∀ r ∈ search_loop st k thr cands seen acc,
        r.metadata = (alGet st.metadata r.doc_id).getD [] := by
  intro cands
  induction cands with
  | nil => intro seen acc hacc; exact hacc
  | cons hit rest ih =>
    intro seen acc hacc
    obtain ⟨score, idx⟩ := hit
    by_cases hs : score < thr
    · simpa [search_loop, hs] using ih seen acc hacc
    · simp only [search_loop, hs, if_false]
      split
      next docId hfd =>
        by_cases hnew : docId ≠ "" ∧ docId ∉ seen
        · rw [if_pos hnew]
          have hacc' : ∀ r ∈ acc ++
              [(⟨docId, score, ((alGet st.documents docId).map (fun d => d.text)).getD "",
                (alGet st.metadata docId).getD [], get_chunk_content st docId idx⟩ :
                SearchResult)],
              r.metadata = (alGet st.metadata r.doc_id).getD [] := by
            intro r hr
            rcases List.mem_append.mp hr with hr | hr
            · exact hacc r hr
            · simp only [List.mem_singleton] at hr
              rw [hr]
          by_cases hfull : k ≤ (acc ++
              [(⟨docId, score, ((alGet st.documents docId).map (fun d => d.text)).getD "",
                (alGet st.metadata docId).getD [], get_chunk_content st docId idx⟩ :
                SearchResult)]).length
          · rw [if_pos hfull]
            exact hacc'
          · rw [if_neg hfull]
            exact ih (docId :: seen) _ hacc'
        · rw [if_neg hnew]
          exact ih seen acc hacc
      next => exact ih seen acc hacc

/-- The six store-assigned keys of the built metadata dict. -/
theorem addedMeta_reserved (attrs : Dict) (docId : String) (nchunks startIdx : Nat)
    (now : String) :
    alGet (addedMeta attrs docId nchunks startIdx now) "doc_id" = some (.s docId) ∧
    alGet (addedMeta attrs docId nchunks startIdx now) "chunk_count" = some (.i nchunks) ∧
    alGet (addedMeta attrs docId nchunks startIdx now) "start_index" = some (.i startIdx) ∧
    alGet (addedMeta attrs docId nchunks startIdx now) "end_index"
      = some (.i ((startIdx : Int) + nchunks - 1)) ∧
    alGet (addedMeta attrs docId nchunks startIdx now) "created_at" = some (.s now) ∧
    alGet (addedMeta attrs docId nchunks startIdx now) "vector_model"
      = some (.s model_name) := by
  unfold addedMeta
  refine ⟨?_, ?_, ?_, ?_, ?_, ?_⟩
  · rw [alGet_alSet_ne _ _ (by decide), alGet_alSet_ne _ _ (by decide),
      alGet_alSet_ne _ _ (by decide), alGet_alSet_ne _ _ (by decide),
      alGet_alSet_ne _ _ (by decide), alGet_alSet_self]
  · rw [alGet_alSet_ne _ _ (by decide), alGet_alSet_ne _ _ (by decide),
      alGet_alSet_ne _ _ (by decide), alGet_alSet_ne _ _ (by decide),
      alGet_alSet_self]
  · rw [alGet_alSet_ne _ _ (by decide), alGet_alSet_ne _ _ (by decide),
      alGet_alSet_ne _ _ (by decide), alGet_alSet_self]
  · rw [alGet_alSet_ne _ _ (by decide), alGet_alSet_ne _ _ (by decide), alGet_alSet_self]
  · rw [alGet_alSet_ne _ _ (by decide), alGet_alSet_self]
  · rw [alGet_alSet_self]

/-- Keys outside the six store-assigned ones read through to the caller's
attributes untouched. -/
theorem addedMeta_other (attrs : Dict) (docId : String) (nchunks startIdx : Nat)
    (now : String) (k : String) (hk : k ∉ storeReservedKeys) :
    alGet (addedMeta attrs docId nchunks startIdx now) k = alGet attrs k := by
  have hne : ∀ s ∈ storeReservedKeys, k ≠ s := fun s hs he => hk (he ▸ hs)
  unfold addedMeta
  rw [alGet_alSet_ne _ _ (hne _ (by decide)), alGet_alSet_ne _ _ (hne _ (by decide)),
    alGet_alSet_ne _ _ (hne _ (by decide)), alGet_alSet_ne _ _ (hne _ (by decide)),
    alGet_alSet_ne _ _ (hne _ (by decide)), alGet_alSet_ne _ _ (hne _ (by decide))]

/-- Characterization of a successful fresh `add_document`. -/
theorem add_document_fresh (emb : String → Option (List Int)) (st : St)
    (docId text : String) (mdata : Option Dict) (now : String) (vs : List (List Int))
    (hfresh : alHas st.documents docId = false)
    (henc : encodeAll emb (split_text (preprocess text) 512 50) = some vs) :
    add_document emb st docId text mdata now =
      (⟨st.index ++ vs,
        alSet st.metadata docId
          (addedMeta (mdata.getD []) docId (split_text (preprocess text) 512 50).length
            st.index.length now),
        alSet st.documents docId
          ⟨text, preprocess text, split_text (preprocess text) 512 50,
            (split_text (preprocess text) 512 50).length⟩,
        (List.range (split_text (preprocess text) 512 50).length).foldl
          (fun m i => alSet m (docId ++ "_chunk_" ++ toString i) (st.index.length + i))
          st.id_to_index⟩, true) := by
  simp only [add_document, hfresh, Bool.false_eq_true, if_false, henc]

/-- Every `search_similar` result carries the stored metadata dict of its
`doc_id` (the code copies `self.metadata.get(doc_id, {})` into the result). -/
theorem search_similar_metadata (emb : String → Option (List Int)) (st : St)
    (q : String) (k : Nat) (thr : Int) :
    ∀ res ∈ search_similar emb st q k thr,
      res.metadata = (alGet st.metadata res.doc_id).getD [] := by
  intro res hres
  unfold search_similar search_similar_try at hres
  by_cases h0 : st.index.length = 0
  · simp [h0] at hres
  · simp only [h0, if_false] at hres
    cases hq : emb q with
    | none =>
      rw [hq] at hres
      simp at hres
    | some qv =>
      rw [hq] at hres
      simp only at hres
      exact search_loop_metadata st k thr _ [] [] (by simp) res hres

/-- **C10** (confirmed): for a fresh id, `add_document` succeeds and the
stored metadata dict holds the store-assigned values under the six reserved
keys `doc_id`, `chunk_count`, `start_index`, `end_index`, `created_at`,
`vector_model` — overwriting whatever the caller supplied there — while every
caller attribute under any other key is preserved verbatim; `get_document`
and `search_similar` return exactly that stored dict. -/
theorem add_document_attribute_handling (emb : String → Option (List Int))
    (st : St) (docId text : String) (attrs : Dict) (now : String)
    (vs : List (List Int))
    (hfresh : alHas st.documents docId = false)
    (henc : encodeAll emb (split_text (preprocess text) 512 50) = some vs) :
    (add_document emb st docId text (some attrs) now).2 = true ∧
    (alGet (add_document emb st docId text (some attrs) now).1.metadata docId).getD []
      = addedMeta attrs docId (split_text (preprocess text) 512 50).length
          st.index.length now ∧
    alGet (addedMeta attrs docId (split_text (preprocess text) 512 50).length
        st.index.length now) "doc_id" = some (.s docId) ∧
    alGet (addedMeta attrs docId (split_text (preprocess text) 512 50).length
        st.index.length now) "chunk_count"
      = some (.i (split_text (preprocess text) 512 50).length) ∧
    alGet (addedMeta attrs docId (split_text (preprocess text) 512 50).length
        st.index.length now) "start_index" = some (.i st.index.length) ∧
    alGet (addedMeta attrs docId (split_text (preprocess text) 512 50).length
        st.index.length now) "end_index"
      = some (.i ((st.index.length : Int)
          + (split_text (preprocess text) 512 50).length - 1)) ∧
    alGet (addedMeta attrs docId (split_text (preprocess text) 512 50).length
        st.index.length now) "created_at" = some (.s now) ∧
    alGet (addedMeta attrs docId (split_text (preprocess text) 512 50).length
        st.index.length now) "vector_model" = some (.s model_name) ∧
    (∀ k, k ∉ storeReservedKeys →
      alGet (addedMeta attrs docId (split_text (preprocess text) 512 50).length
        st.index.length now) k = alGet attrs k) ∧
    (get_document (add_document emb st docId text (some attrs) now).1 docId).map
        GetResult.metadata
      = some (addedMeta attrs docId (split_text (preprocess text) 512 50).length
          st.index.length now) ∧
    (∀ q kk thr res,
      res ∈ search_similar emb (add_document emb st docId text (some attrs) now).1 q kk thr →
      res.doc_id = docId →
      res.metadata = addedMeta attrs docId (split_text (preprocess text) 512 50).length
        st.index.length now) := by
  have heq := add_document_fresh emb st docId text (some attrs) now vs hfresh henc
  have hres := addedMeta_reserved attrs docId (split_text (preprocess text) 512 50).length
    st.index.length now
  have hGet : (alGet (add_document emb st docId text (some attrs) now).1.metadata
      docId).getD []
      = addedMeta attrs docId (split_text (preprocess text) 512 50).length
          st.index.length now := by
    rw [heq]
    simp [alGet_alSet_self]
  refine ⟨by rw [heq], hGet, hres.1, hres.2.1, hres.2.2.1, hres.2.2.2.1, hres.2.2.2.2.1,
    hres.2.2.2.2.2, addedMeta_other attrs docId _ _ now, ?_, ?_⟩
  · rw [heq]
    simp [get_document, alGet_alSet_self]
  · intro q kk thr res hmem hid
    have := search_similar_metadata emb
      (add_document emb st docId text (some attrs) now).1 q kk thr res hmem
    rw [this, hid, hGet]

/-- Witness for C10 at a concrete input: caller attributes carry a reserved
key (`start_index` = "bogus") that gets overwritten, and a custom key
(`topic`) that survives. -/
theorem add_document_attribute_handling_witness :
    (add_document embC St.empty "dX" "hello"
        (some [("topic", MVal.s "news"), ("start_index", MVal.s "bogus")]) "t0").2 = true ∧
    (alGet (add_document embC St.empty "dX" "hello"
        (some [("topic", MVal.s "news"), ("start_index", MVal.s "bogus")]) "t0").1.metadata
        "dX").getD []
      = addedMeta [("topic", MVal.s "news"), ("start_index", MVal.s "bogus")] "dX"
          (split_text (preprocess "hello") 512 50).length St.empty.index.length "t0" ∧
    alGet (addedMeta [("topic", MVal.s "news"), ("start_index", MVal.s "bogus")] "dX"
        (split_text (preprocess "hello") 512 50).length St.empty.index.length "t0")
      "doc_id" = some (.s "dX") ∧
    alGet (addedMeta [("topic", MVal.s "news"), ("start_index", MVal.s "bogus")] "dX"
        (split_text (preprocess "hello") 512 50).length St.empty.index.length "t0")
      "chunk_count" = some (.i (split_text (preprocess "hello") 512 50).length) ∧
    alGet (addedMeta [("topic", MVal.s "news"), ("start_index", MVal.s "bogus")] "dX"
        (split_text (preprocess "hello") 512 50).length St.empty.index.length "t0")
      "start_index" = some (.i St.empty.index.length) ∧
    alGet (addedMeta [("topic", MVal.s "news"), ("start_index", MVal.s "bogus")] "dX"
        (split_text (preprocess "hello") 512 50).length St.empty.index.length "t0")
      "end_index"
      = some (.i ((St.empty.index.length : Int)
          + (split_text (preprocess "hello") 512 50).length - 1)) ∧
    alGet (addedMeta [("topic", MVal.s "news"), ("start_index", MVal.s "bogus")] "dX"
        (split_text (preprocess "hello") 512 50).length St.empty.index.length "t0")
      "created_at" = some (.s "t0") ∧
    alGet (addedMeta [("topic", MVal.s "news"), ("start_index", MVal.s "bogus")] "dX"
        (split_text (preprocess "hello") 512 50).length St.empty.index.length "t0")
      "vector_model" = some (.s model_name) ∧
    (∀ k, k ∉ storeReservedKeys →
      alGet (addedMeta [("topic", MVal.s "news"), ("start_index", MVal.s "bogus")] "dX"
        (split_text (preprocess "hello") 512 50).length St.empty.index.length "t0") k
      = alGet [("topic", MVal.s "news"), ("start_index", MVal.s "bogus")] k) ∧
    (get_document (add_document embC St.empty "dX" "hello"
        (some [("topic", MVal.s "news"), ("start_index", MVal.s "bogus")]) "t0").1
        "dX").map GetResult.metadata
      = some (addedMeta [("topic", MVal.s "news"), ("start_index", MVal.s "bogus")] "dX"
          (split_text (preprocess "hello") 512 50).length St.empty.index.length "t0") ∧
    (∀ q kk thr res,
      res ∈ search_similar embC (add_document embC St.empty "dX" "hello"
        (some [("topic", MVal.s "news"), ("start_index", MVal.s "bogus")]) "t0").1 q kk thr →
      res.doc_id = "dX" →
      res.metadata = addedMeta [("topic", MVal.s "news"), ("start_index", MVal.s "bogus")]
        "dX" (split_text (preprocess "hello") 512 50).length St.empty.index.length "t0") :=
  add_document_attribute_handling embC St.empty "dX" "hello"
    [("topic", MVal.s "news"), ("start_index", MVal.s "bogus")] "t0" [[1]]
    (by rfl) (by rfl)

/-! ## C4 / C8: the position-range invariant and rebuild machinery -/

theorem alHas_eq_mem_keys {α : Type} (d : List (String × α)) (k : String) :
    alHas d k = true ↔ k ∈ d.map Prod.fst := by
  induction d with
  | nil => simp [alHas]
  | cons p rest ih =>
    simp only [alHas, List.map_cons, List.mem_cons, Bool.or_eq_true, decide_eq_true_eq]
    rw [ih]
    constructor
    · rintro (h | h)
      · exact Or.inl h.symm
      · exact Or.inr h
    · rintro (h | h)
      · exact Or.inl h.symm
      · exact Or.inr h

theorem alGet_of_mem_nodup {α : Type} {d : List (String × α)} {k : String} {v : α}
    (hnd : (d.map Prod.fst).Nodup) (hm : (k, v) ∈ d) : alGet d k = some v := by
  induction d with
  | nil => simp at hm
  | cons p rest ih =>
    simp only [List.map_cons, List.nodup_cons] at hnd
    rcases List.mem_cons.mp hm with rfl | hm
    · simp [alGet]
    · have hne : p.1 ≠ k := by
        intro he
        exact hnd.1 (he ▸ List.mem_map.mpr ⟨(k, v), hm, rfl⟩)
      simp only [alGet, hne, if_false]
      exact ih hnd.2 hm

theorem mem_alSet_iff {α : Type} {d : List (String × α)} {k : String} {v : α}
    (hnd : (d.map Prod.fst).Nodup) (p : String × α) :
    p ∈ alSet d k v ↔ p = (k, v) ∨ (p ∈ d ∧ p.1 ≠ k) := by
  induction d with
  | nil => simp [alSet]
  | cons q rest ih =>
    simp only [List.map_cons, List.nodup_cons] at hnd
    by_cases hq : q.1 = k
    · simp only [alSet, hq, if_true]
      constructor
      · intro hp
        rcases List.mem_cons.mp hp with rfl | hp
        · exact Or.inl rfl
        · refine Or.inr ⟨List.mem_cons_of_mem _ hp, ?_⟩
          intro he
          rw [← hq] at he
          exact hnd.1 (he ▸ List.mem_map.mpr ⟨p, hp, rfl⟩)
      · intro hp
        rcases hp with rfl | ⟨hp, hne⟩
        · exact List.mem_cons_self _ _
        · rcases List.mem_cons.mp hp with rfl | hp
          · exact absurd hq hne
          · exact List.mem_cons_of_mem _ hp
    · simp only [alSet, hq, if_false]
      constructor
      · intro hp
        rcases List.mem_cons.mp hp with rfl | hp
        · exact Or.inr ⟨List.mem_cons_self _ _, hq⟩
        · rcases (ih hnd.2).mp hp with rfl | ⟨hp, hne⟩
          · exact Or.inl rfl
          · exact Or.inr ⟨List.mem_cons_of_mem _ hp, hne⟩
      · intro hp
        rcases hp with rfl | ⟨hp, hne⟩
        · exact List.mem_cons_of_mem _ ((ih hnd.2).mpr (Or.inl rfl))
        · rcases List.mem_cons.mp hp with rfl | hp
          · exact List.mem_cons_self _ _
          · exact List.mem_cons_of_mem _ ((ih hnd.2).mpr (Or.inr ⟨hp, hne⟩))

theorem map_set_id_of_not_has {α : Type} {d : List (String × α)} {k : String} {v : α}
    (h : alHas d k = false) :
    d.map (fun p => if p.1 = k then (k, v) else p) = d := by
  induction d with
  | nil => rfl
  | cons p rest ih =>
    simp only [alHas, Bool.or_eq_false_iff, decide_eq_false_iff_not] at h
    simp [h.1, ih h.2]

theorem alSet_eq_map_of_nodup {α : Type} {d : List (String × α)} (k : String) (v : α)
    (hnd : (d.map Prod.fst).Nodup) (hhas : alHas d k = true) :
    alSet d k v = d.map (fun p => if p.1 = k then (k, v) else p) := by
  induction d with
  | nil => simp [alHas] at hhas
  | cons q rest ih =>
    simp only [List.map_cons, List.nodup_cons] at hnd
    by_cases hq : q.1 = k
    · have hfresh : alHas rest k = false := by
        by_contra hh
        rw [Bool.not_eq_false, alHas_eq_mem_keys] at hh
        exact hnd.1 (hq ▸ hh)
      simp only [alSet, hq, if_true, List.map_cons, if_pos hq]
      rw [map_set_id_of_not_has hfresh]
    · have hhas' : alHas rest k = true := by
        simp only [alHas, Bool.or_eq_true, decide_eq_true_eq] at hhas
        rcases hhas with h | h
        · exact absurd h hq
        · exact h
      simp [alSet, hq, ih hnd.2 hhas']

theorem encodeAll_length (emb : String → Option (List Int)) :
    ∀ {ts : List String} {vs : List (List Int)},
      encodeAll emb ts = some vs → vs.length = ts.length := by
  intro ts
  induction ts with
  | nil => intro vs h; simp only [encodeAll, Option.some.injEq] at h; simp [← h]
  | cons t ts' ih =>
    intro vs h
    simp only [encodeAll] at h
    match he : emb t, hr : encodeAll emb ts' with
    | some v, some vs' =>
      rw [he, hr] at h
      simp only [Option.some.injEq] at h
      simp [← h, ih hr]
    | some v, none => rw [he, hr] at h; cases h
    | none, _ => rw [he] at h; cases h

theorem encodeAll_append (emb : String → Option (List Int)) :
    ∀ {a b : List String} {va vb : List (List Int)},
      encodeAll emb a = some va → encodeAll emb b = some vb →
      encodeAll emb (a ++ b) = some (va ++ vb) := by
  intro a
  induction a with
  | nil =>
    intro b va vb ha hb
    simp only [encodeAll, Option.some.injEq] at ha
    simp [← ha, hb]
  | cons t a' ih =>
    intro b va vb ha hb
    simp only [encodeAll] at ha
    match he : emb t, hr : encodeAll emb a' with
    | some v, some va' =>
      rw [he, hr] at ha
      simp only [Option.some.injEq] at ha
      simp only [List.cons_append, List.append_eq, encodeAll, he, ih hr hb, ← ha]
    | some v, none => rw [he, hr] at ha; cases ha
    | none, _ => rw [he] at ha; cases ha

theorem encodeAll_total (emb : String → Option (List Int)) (htot : EmbTotal emb) :
    ∀ ts : List String,
      ∃ vs, encodeAll emb ts = some vs ∧ vs.length = ts.length ∧
        ∀ i (hi : i < ts.length), emb (ts.get ⟨i, hi⟩) = vs.get? i := by
  intro ts
  induction ts with
  | nil =>
    exact ⟨[], rfl, rfl, fun i hi => absurd hi (Nat.not_lt_zero i)⟩
  | cons t ts' ih =>
    obtain ⟨vs, hvs, hlen, hget⟩ := ih
    obtain ⟨v, hv⟩ := Option.isSome_iff_exists.mp (htot t)
    refine ⟨v :: vs, ?_, by simp [hlen], ?_⟩
    · simp [encodeAll, hv, hvs]
    · intro i hi
      cases i with
      | zero => simpa using hv
      | succ j =>
        simp only [List.get, List.get?]
        exact hget j (by simpa using hi)

theorem intGetD_congr {m m' : Dict} (k : String) (dflt : Int)
    (h : alGet m' k = alGet m k) : intGetD m' k dflt = intGetD m k dflt := by
  unfold intGetD
  rw [h]

/-- Marking a document deleted does not move its recorded range. -/
theorem deleted_mark_preserves_SE (m : Dict) (t : String) :
    metaS (alSet (alSet m "deleted" (.b true)) "deleted_at" (.s t)) = metaS m ∧
    metaE (alSet (alSet m "deleted" (.b true)) "deleted_at" (.s t)) = metaE m := by
  constructor
  · exact intGetD_congr _ _ (by rw [alGet_alSet_ne _ _ (by decide),
      alGet_alSet_ne _ _ (by decide)])
  · exact intGetD_congr _ _ (by rw [alGet_alSet_ne _ _ (by decide),
      alGet_alSet_ne _ _ (by decide)])

theorem rangeMem_congr {m m' : Dict} (hS : metaS m' = metaS m)
    (hE : metaE m' = metaE m) (p : Nat) : rangeMem m' p ↔ rangeMem m p := by
  unfold rangeMem
  rw [hS, hE]

theorem docRangeOK_mono (emb : String → Option (List Int))
    {index : List (List Int)} (vs : List (List Int))
    {documents : List (String × DocData)} (k : String) (dd0 : DocData)
    {id : String} {m : Dict} (hid : id ≠ k)
    (h : docRangeOK emb index documents id m) :
    docRangeOK emb (index ++ vs) (alSet documents k dd0) id m := by
  obtain ⟨dd, hdd, hch, hcc, hpt, s, hS, hE, hb, hget⟩ := h
  refine ⟨dd, ?_, hch, hcc, hpt, s, hS, hE, ?_, ?_⟩
  · rw [alGet_alSet_ne _ _ hid, hdd]
  · simp only [List.length_append]
    omega
  · intro i hi
    obtain ⟨v, hv1, hv2⟩ := hget i hi
    refine ⟨v, ?_, hv2⟩
    rw [List.get?_append (by omega)]
    exact hv1

/-- The metadata dict of a docRangeOK entry only matters through its
recorded range. -/
theorem docRangeOK_congr (emb : String → Option (List Int))
    {index : List (List Int)} {documents : List (String × DocData)}
    {id : String} {m m' : Dict} (hS : metaS m' = metaS m) (hE : metaE m' = metaE m)
    (h : docRangeOK emb index documents id m) :
    docRangeOK emb index documents id m' := by
  obtain ⟨dd, hdd, hch, hcc, hpt, s, hS0, hE0, hb, hget⟩ := h
  exact ⟨dd, hdd, hch, hcc, hpt, s, hS ▸ hS0, hE ▸ hE0, hb, hget⟩

/-- `add_document` preserves the store invariant (total embedder). -/
theorem StoreInv_add (emb : String → Option (List Int)) (htot : EmbTotal emb)
    (st : St) (docId text : String) (mdata : Option Dict) (now : String)
    (hInv : StoreInv emb st) :
    StoreInv emb (add_document emb st docId text mdata now).1 := by
  by_cases hex : alHas st.documents docId = true
  · have : add_document emb st docId text mdata now = (st, true) := by
      simp [add_document, hex]
    rw [this]
    exact hInv
  · have hfresh : alHas st.documents docId = false := by simpa using hex
    obtain ⟨vs, henc, hlen, hget⟩ :=
      encodeAll_total emb htot (split_text (preprocess text) 512 50)
    have heq := add_document_fresh emb st docId text mdata now vs hfresh henc
    rw [heq]
    obtain ⟨hkeys, hndm, hndd, hdoc, hpair, hcov⟩ := hInv
    have hfreshm : alHas st.metadata docId = false := by rw [hkeys]; exact hfresh
    have hnotinm : docId ∉ st.metadata.map Prod.fst := by
      rw [← alHas_eq_mem_keys]
      simp [hfreshm]
    have hnotind : docId ∉ st.documents.map Prod.fst := by
      rw [← alHas_eq_mem_keys]
      simp [hfresh]
    have happend := alSet_fresh st.metadata docId
      (addedMeta (mdata.getD []) docId (split_text (preprocess text) 512 50).length
        st.index.length now) hfreshm
    have hmres := addedMeta_reserved (mdata.getD []) docId
      (split_text (preprocess text) 512 50).length st.index.length now
    have hSdm : metaS (addedMeta (mdata.getD []) docId
        (split_text (preprocess text) 512 50).length st.index.length now)
        = (st.index.length : Int) := by
      unfold metaS intGetD
      rw [hmres.2.2.1]
    have hEdm : metaE (addedMeta (mdata.getD []) docId
        (split_text (preprocess text) 512 50).length st.index.length now)
        = (st.index.length : Int) + (split_text (preprocess text) 512 50).length - 1 := by
      unfold metaE intGetD
      rw [hmres.2.2.2.1]
    refine ⟨?_, ?_, ?_, ?_, ?_, ?_⟩
    · intro id
      simp only [alHas_alSet, hkeys id]
    · rw [happend, List.map_append, List.nodup_append]
      refine ⟨hndm, by simp, ?_⟩
      intro a ha hb
      simp only [List.map_cons, List.map_nil, List.mem_singleton] at hb
      rw [hb] at ha
      exact hnotinm ha
    · rw [alSet_fresh st.documents docId _ hfresh, List.map_append, List.nodup_append]
      refine ⟨hndd, by simp, ?_⟩
      intro a ha hb
      simp only [List.map_cons, List.map_nil, List.mem_singleton] at hb
      rw [hb] at ha
      exact hnotind ha
    · rw [happend]
      intro p hp
      rcases List.mem_append.mp hp with hp | hp
      · have hne : p.1 ≠ docId := by
          intro he
          exact hnotinm (he ▸ List.mem_map.mpr ⟨p, hp, rfl⟩)
        exact docRangeOK_mono emb vs docId _ hne (hdoc p hp)
      · simp only [List.mem_singleton] at hp
        rw [hp]
        refine ⟨⟨text, preprocess text, split_text (preprocess text) 512 50,
          (split_text (preprocess text) 512 50).length⟩, ?_, rfl, rfl, rfl,
          st.index.length, hSdm, hEdm, ?_, ?_⟩
        · rw [alGet_alSet_self]
        · simp only [List.length_append]
          omega
        · intro i hi
          simp only at hi
          have hiv : i < vs.length := by omega
          refine ⟨vs.get ⟨i, hiv⟩, ?_, ?_⟩
          · rw [List.get?_append_right (by omega)]
            have : st.index.length + i - st.index.length = i := by omega
            rw [this, List.get?_eq_get hiv]
          · have := hget i hi
            rw [this, List.get?_eq_get hiv]
    · rw [happend]
      rw [List.pairwise_append]
      refine ⟨hpair, by simp, ?_⟩
      intro a ha b hb
      simp only [List.mem_singleton] at hb
      rw [hb]
      intro p hp
      obtain ⟨dd, _, _, _, _, s, hS, hE, hbnd, _⟩ := hdoc a ha
      obtain ⟨⟨hp1S, hp1E⟩, ⟨hp2S, hp2E⟩⟩ := hp
      rw [hS] at hp1S
      rw [hE] at hp1E
      rw [hSdm] at hp2S
      rw [hEdm] at hp2E
      omega
    · intro pos hpos
      simp only [List.length_append] at hpos
      rw [happend]
      by_cases hlt : pos < st.index.length
      · obtain ⟨q, hq, hqr⟩ := hcov pos hlt
        exact ⟨q, List.mem_append.mpr (Or.inl hq), hqr⟩
      · refine ⟨(docId, addedMeta (mdata.getD []) docId
          (split_text (preprocess text) 512 50).length st.index.length now),
          List.mem_append.mpr (Or.inr (List.mem_singleton.mpr rfl)), ?_, ?_⟩
        · rw [hSdm]
          omega
        · rw [hEdm]
          omega

/-- `delete_document` preserves the store invariant: it only sets the
`deleted` / `deleted_at` keys, leaving ranges, documents and the index
untouched. -/
theorem StoreInv_delete (emb : String → Option (List Int)) (st : St)
    (docId now : String) (hInv : StoreInv emb st) :
    StoreInv emb (delete_document st docId now).1 := by
  by_cases hex : alHas st.documents docId = true
  · have hm : alHas st.metadata docId = true := by rw [hInv.1 docId]; exact hex
    have heq : (delete_document st docId now).1 =
        { st with metadata := alSet st.metadata docId (alSet (alSet ((alGet st.metadata docId).getD []) "deleted" (MVal.b true)) "deleted_at" (MVal.s now)) } := by
      simp [delete_document, hex, hm]
    rw [heq]
    obtain ⟨hkeys, hndm, hndd, hdoc, hpair, hcov⟩ := hInv
    obtain ⟨m0, hm0⟩ := (alHas_iff_get st.metadata docId).mp hm
    have hm0' : (alGet st.metadata docId).getD [] = m0 := by rw [hm0]; rfl
    rw [hm0']
    have hSE := deleted_mark_preserves_SE m0 now
    have hmem0 : (docId, m0) ∈ st.metadata := alGet_mem _ _ _ hm0
    -- per-entry effect of the update
    have helem : ∀ x ∈ st.metadata,
        metaS ((if x.1 = docId then (docId,
            alSet (alSet m0 "deleted" (.b true)) "deleted_at" (.s now)) else x) :
            String × Dict).2 = metaS x.2 ∧
        metaE ((if x.1 = docId then (docId,
            alSet (alSet m0 "deleted" (.b true)) "deleted_at" (.s now)) else x) :
            String × Dict).2 = metaE x.2 := by
      intro x hx
      by_cases hxid : x.1 = docId
      · have hxm : x.2 = m0 := by
          have h1 := alGet_of_mem_nodup hndm (show (x.1, x.2) ∈ st.metadata from hx)
          rw [hxid, hm0] at h1
          exact (Option.some.inj h1).symm
        simp only [hxid, if_true]
        rw [hxm]
        exact hSE
      · simp [hxid]
    have hmap := alSet_eq_map_of_nodup docId
      (alSet (alSet m0 "deleted" (.b true)) "deleted_at" (.s now)) hndm hm
    refine ⟨?_, ?_, hndd, ?_, ?_, ?_⟩
    · intro id
      rw [alHas_alSet]
      by_cases hid : docId = id
      · rw [← hid, hm, hex]
        simp
      · have hd : decide (docId = id) = false := by simp [hid]
        rw [hd, Bool.false_or]
        exact hkeys id
    · rw [keys_alSet, if_pos hm]
      exact hndm
    · intro p hp
      rcases (mem_alSet_iff hndm p).mp hp with rfl | ⟨hp, hpne⟩
      · exact docRangeOK_congr emb hSE.1 hSE.2 (hdoc (docId, m0) hmem0)
      · exact hdoc p hp
    · rw [hmap]
      rw [List.pairwise_map]
      refine List.Pairwise.imp_of_mem ?_ hpair
      intro a b ha hb hdisj p hp
      have hea := helem a ha
      have heb := helem b hb
      exact hdisj p ⟨(rangeMem_congr hea.1 hea.2 p).mp hp.1,
        (rangeMem_congr heb.1 heb.2 p).mp hp.2⟩
    · intro pos hpos
      obtain ⟨q, hq, hqr⟩ := hcov pos hpos
      rw [hmap]
      refine ⟨(if q.1 = docId then (docId,
        alSet (alSet m0 "deleted" (.b true)) "deleted_at" (.s now)) else q),
        List.mem_map_of_mem _ hq, ?_⟩
      have he := helem q hq
      exact (rangeMem_congr he.1 he.2 pos).mpr hqr
  · have : delete_document st docId now = (st, false) := by
      simp [delete_document, hex]
    rw [this]
    exact hInv

theorem alHas_of_keys_eq {α β : Type} {d : List (String × α)} {d' : List (String × β)}
    (h : d.map Prod.fst = d'.map Prod.fst) (k : String) : alHas d k = alHas d' k := by
  cases hb : alHas d' k
  · cases hd : alHas d k
    · rfl
    · rw [alHas_eq_mem_keys, h, ← alHas_eq_mem_keys] at hd
      rw [hd] at hb
      cases hb
  · rw [alHas_eq_mem_keys, ← h, ← alHas_eq_mem_keys] at hb
    exact hb

/-- Range and tombstone fields of the metadata dict rewritten by the rebuild
loop (`start_index`/`end_index` set, `deleted`/`deleted_at` popped). -/
theorem rebuild_meta_fields (m : Dict) (L n : Nat) :
    metaS (alPop (alPop (alSet (alSet m "start_index" (.i L)) "end_index"
        (.i ((L : Int) + n - 1))) "deleted") "deleted_at") = (L : Int) ∧
    metaE (alPop (alPop (alSet (alSet m "start_index" (.i L)) "end_index"
        (.i ((L : Int) + n - 1))) "deleted") "deleted_at") = (L : Int) + n - 1 ∧
    alGet (alPop (alPop (alSet (alSet m "start_index" (.i L)) "end_index"
        (.i ((L : Int) + n - 1))) "deleted") "deleted_at") "deleted" = none := by
  refine ⟨?_, ?_, ?_⟩
  · unfold metaS intGetD
    rw [alGet_alPop_ne _ (by decide), alGet_alPop_ne _ (by decide),
      alGet_alSet_ne _ _ (by decide), alGet_alSet_self]
  · unfold metaE intGetD
    rw [alGet_alPop_ne _ (by decide), alGet_alPop_ne _ (by decide), alGet_alSet_self]
  · rw [alGet_alPop_ne _ (by decide), alGet_alPop_self]

theorem rebuildMeta_fields (m : Dict) (L n : Nat) :
    metaS (rebuildMeta m L n) = (L : Int) ∧
    metaE (rebuildMeta m L n) = (L : Int) + n - 1 ∧
    alGet (rebuildMeta m L n) "deleted" = none :=
  rebuild_meta_fields m L n

/-- One successful step of the rebuild loop, written out. -/
theorem rebuild_loop_cons (emb : String → Option (List Int)) (acc : RebuildAcc)
    (docId : String) (dd : DocData) (m : Dict)
    (rest : List (String × DocData × Dict)) (vs : List (List Int))
    (henc : encodeAll emb dd.chunks = some vs) :
    rebuild_loop emb acc ((docId, dd, m) :: rest) =
    rebuild_loop emb
      ⟨acc.index ++ vs,
        alSet acc.new_metadata docId (rebuildMeta m acc.index.length dd.chunks.length),
        alSet acc.new_documents docId dd,
        (List.range dd.chunks.length).foldl
          (fun mm i => alSet mm (docId ++ "_chunk_" ++ toString i) (acc.index.length + i))
          acc.id_to_index,
        if alHas acc.metadata docId then
          alSet acc.metadata docId (rebuildMeta m acc.index.length dd.chunks.length)
        else acc.metadata⟩ rest := by
  simp only [rebuild_loop, henc, rebuildMeta]

theorem chunksFlat_map (g : (String × DocData) → Dict) :
    ∀ l : List (String × DocData),
      chunksFlat (l.map (fun p => (p.1, p.2, g p))) = catChunks l := by
  intro l
  induction l with
  | nil => rfl
  | cons p rest ih => simp only [List.map_cons, chunksFlat, catChunks, ih]

/-- Full characterization of a successful pass of the rebuild loop over a
list of fresh, chunk-consistent documents: it succeeds, appends the documents
and their embeddings in order, assigns consecutive ranges starting at the end
of the accumulated index, preserves earlier entries, and maintains the
partial-catalog invariant. -/
theorem rebuild_loop_spec (emb : String → Option (List Int)) (htot : EmbTotal emb) :
    ∀ (active : List (String × DocData × Dict)) (acc : RebuildAcc),
      (active.map (fun t => t.1)).Nodup →
      (∀ t ∈ active, alHas acc.new_metadata t.1 = false) →
      (∀ t ∈ active, t.2.1.chunks = split_text (preprocess t.2.1.text) 512 50 ∧
        t.2.1.chunk_count = t.2.1.chunks.length ∧
        t.2.1.processed_text = preprocess t.2.1.text) →
      RebuildMid emb acc →
      (rebuild_loop emb acc active).2 = true ∧
      RebuildMid emb (rebuild_loop emb acc active).1 ∧
      (rebuild_loop emb acc active).1.new_documents
        = acc.new_documents ++ active.map (fun t => (t.1, t.2.1)) ∧
      (rebuild_loop emb acc active).1.new_metadata.map Prod.fst
        = acc.new_metadata.map Prod.fst ++ active.map (fun t => t.1) ∧
      (∃ vsAll, encodeAll emb (chunksFlat active) = some vsAll ∧
        (rebuild_loop emb acc active).1.index = acc.index ++ vsAll) ∧
      (∀ k, alHas acc.new_metadata k = true →
        alGet (rebuild_loop emb acc active).1.new_metadata k
          = alGet acc.new_metadata k) ∧
      rangesSeq (rebuild_loop emb acc active).1.new_metadata acc.index.length
        (active.map (fun t => (t.1, t.2.1))) := by
  intro active
  induction active with
  | nil =>
    intro acc hnd hfresh hcons hmid
    exact ⟨rfl, hmid, by simp [rebuild_loop], by simp [rebuild_loop],
      ⟨[], rfl, by simp [rebuild_loop]⟩, fun k _ => rfl, trivial⟩
  | cons t rest ih =>
    obtain ⟨docId, dd, m⟩ := t
    intro acc hnd hfresh hcons hmid
    obtain ⟨vs, henc, hlen, hget⟩ := encodeAll_total emb htot dd.chunks
    have hstep := rebuild_loop_cons emb acc docId dd m rest vs henc
    simp only [List.map_cons, List.nodup_cons] at hnd
    have hf0 : alHas acc.new_metadata docId = false :=
      hfresh (docId, dd, m) (List.mem_cons_self _ _)
    have hc0 := hcons (docId, dd, m) (List.mem_cons_self _ _)
    have hfreshd : alHas acc.new_documents docId = false := by
      rw [alHas_of_keys_eq hmid.keysEq]
      exact hf0
    have hnotinm : docId ∉ acc.new_metadata.map Prod.fst := by
      rw [← alHas_eq_mem_keys]
      simp [hf0]
    have hnotind : docId ∉ acc.new_documents.map Prod.fst := by
      rw [← alHas_eq_mem_keys]
      simp [hfreshd]
    have happm := alSet_fresh acc.new_metadata docId
      (rebuildMeta m acc.index.length dd.chunks.length) hf0
    have happd := alSet_fresh acc.new_documents docId dd hfreshd
    have hMf := rebuildMeta_fields m acc.index.length dd.chunks.length
    -- the accumulator after this step satisfies the invariant
    have hmid' : RebuildMid emb
        ⟨acc.index ++ vs,
          alSet acc.new_metadata docId
            (rebuildMeta m acc.index.length dd.chunks.length),
          alSet acc.new_documents docId dd,
          (List.range dd.chunks.length).foldl
            (fun mm i =>
              alSet mm (docId ++ "_chunk_" ++ toString i) (acc.index.length + i))
            acc.id_to_index,
          if alHas acc.metadata docId then
            alSet acc.metadata docId
              (rebuildMeta m acc.index.length dd.chunks.length)
          else acc.metadata⟩ := by
      refine ⟨?_, ?_, ?_, ?_, ?_, ?_⟩
      · show (alSet acc.new_metadata docId _ |>.map Prod.fst).Nodup
        rw [happm, List.map_append, List.nodup_append]
        refine ⟨hmid.ndKeys, by simp, ?_⟩
        intro a ha hb
        simp only [List.map_cons, List.map_nil, List.mem_singleton] at hb
        rw [hb] at ha
        exact hnotinm ha
      · show (alSet acc.new_documents docId dd).map Prod.fst = _
        rw [happd, happm, List.map_append, List.map_append, hmid.keysEq]
        simp
      · intro p hp
        rcases (mem_alSet_iff hmid.ndKeys p).mp hp with rfl | ⟨hp, hpne⟩
        · refine ⟨dd, ?_, hc0.1, hc0.2.1, hc0.2.2, acc.index.length,
            hMf.1, hMf.2.1, ?_, ?_⟩
          · exact alGet_alSet_self _ _ _
          · simp only [List.length_append]
            omega
          · intro i hi
            have hiv : i < vs.length := by omega
            refine ⟨vs.get ⟨i, hiv⟩, ?_, ?_⟩
            · rw [List.get?_append_right (by omega)]
              have h9 : acc.index.length + i - acc.index.length = i := by omega
              rw [h9, List.get?_eq_get hiv]
            · rw [hget i hi, List.get?_eq_get hiv]
        · exact docRangeOK_mono emb vs docId dd hpne (hmid.docsOK p hp)
      · show (alSet acc.new_metadata docId _).Pairwise _
        rw [happm, List.pairwise_append]
        refine ⟨hmid.disj, by simp, ?_⟩
        intro a ha b hb
        simp only [List.mem_singleton] at hb
        rw [hb]
        intro p hp
        obtain ⟨dda, _, _, _, _, s, hS, hE, hbnd, _⟩ := hmid.docsOK a ha
        obtain ⟨⟨hp1S, hp1E⟩, ⟨hp2S, hp2E⟩⟩ := hp
        rw [hS] at hp1S
        rw [hE] at hp1E
        rw [hMf.1] at hp2S
        rw [hMf.2.1] at hp2E
        omega
      · intro pos hpos
        simp only [List.length_append] at hpos
        show ∃ q ∈ alSet acc.new_metadata docId _, rangeMem q.2 pos
        rw [happm]
        by_cases hlt : pos < acc.index.length
        · obtain ⟨q, hq, hqr⟩ := hmid.cover pos hlt
          exact ⟨q, List.mem_append.mpr (Or.inl hq), hqr⟩
        · refine ⟨(docId, rebuildMeta m acc.index.length dd.chunks.length),
            List.mem_append.mpr (Or.inr (List.mem_singleton.mpr rfl)), ?_, ?_⟩
          · rw [hMf.1]
            omega
          · rw [hMf.2.1]
            omega
      · intro p hp
        rcases (mem_alSet_iff hmid.ndKeys p).mp hp with rfl | ⟨hp, _⟩
        · exact hMf.2.2
        · exact hmid.clean p hp
    have hfresh' : ∀ t ∈ rest,
        alHas (alSet acc.new_metadata docId
          (rebuildMeta m acc.index.length dd.chunks.length)) t.1 = false := by
      intro t ht
      rw [alHas_alSet]
      have hne : docId ≠ t.1 := by
        intro he
        exact hnd.1 (he ▸ List.mem_map.mpr ⟨t, ht, rfl⟩)
      have hf : alHas acc.new_metadata t.1 = false :=
        hfresh t (List.mem_cons_of_mem _ ht)
      simp [hne, hf]
    obtain ⟨h1, hmidr, hdocs, hkeys, ⟨vsR, hencR, hidx⟩, hstab, hseq⟩ :=
      ih _ hnd.2 hfresh' (fun t ht => hcons t (List.mem_cons_of_mem _ ht)) hmid'
    rw [hstep]
    have hhasSelf : alHas (alSet acc.new_metadata docId
        (rebuildMeta m acc.index.length dd.chunks.length)) docId = true := by
      rw [alHas_alSet]
      simp
    have hgetSelf : alGet (rebuild_loop emb
        ⟨acc.index ++ vs,
          alSet acc.new_metadata docId
            (rebuildMeta m acc.index.length dd.chunks.length),
          alSet acc.new_documents docId dd,
          (List.range dd.chunks.length).foldl
            (fun mm i =>
              alSet mm (docId ++ "_chunk_" ++ toString i) (acc.index.length + i))
            acc.id_to_index,
          if alHas acc.metadata docId then
            alSet acc.metadata docId
              (rebuildMeta m acc.index.length dd.chunks.length)
          else acc.metadata⟩ rest).1.new_metadata docId
        = some (rebuildMeta m acc.index.length dd.chunks.length) := by
      rw [hstab docId hhasSelf]
      exact alGet_alSet_self _ _ _
    refine ⟨h1, hmidr, ?_, ?_, ?_, ?_, ?_⟩
    · rw [hdocs]
      show alSet acc.new_documents docId dd ++ _ = _
      rw [happd, List.append_assoc]
      simp
    · rw [hkeys]
      show (alSet acc.new_metadata docId _).map Prod.fst ++ _ = _
      rw [happm, List.map_append, List.append_assoc]
      simp
    · refine ⟨vs ++ vsR, ?_, ?_⟩
      · show encodeAll emb (dd.chunks ++ chunksFlat rest) = _
        exact encodeAll_append emb henc hencR
      · rw [hidx]
        show acc.index ++ vs ++ vsR = _
        rw [List.append_assoc]
    · intro k hk
      have hne : docId ≠ k := by
        intro he
        rw [← he, hf0] at hk
        cases hk
      have hk' : alHas (alSet acc.new_metadata docId
          (rebuildMeta m acc.index.length dd.chunks.length)) k = true := by
        rw [alHas_alSet, hk]
        simp
      rw [hstab k hk', alGet_alSet_ne _ _ (Ne.symm hne)]
    · simp only [List.map_cons]
      refine ⟨?_, ?_, ?_⟩
      · rw [hgetSelf]
        exact hMf.1
      · rw [hgetSelf]
        exact hMf.2.1
      · have h9 : (acc.index ++ vs).length = acc.index.length + dd.chunks.length := by
          rw [List.length_append, hlen]
        rw [h9] at hseq
        exact hseq

/-- A successful rebuild from a state satisfying the store invariant: it
returns True, keeps exactly the non-tombstoned documents in catalog order,
re-embeds their chunks into a fresh index, assigns consecutive ranges from 0,
drops the tombstone keys, and re-establishes the store invariant. -/
theorem rebuild_index_spec (emb : String → Option (List Int)) (htot : EmbTotal emb)
    (st : St) (hInv : StoreInv emb st) :
    (rebuild_index emb st).2 = true ∧
    (rebuild_index emb st).1.documents
      = st.documents.filter (fun p => !isDeletedIn st.metadata p.1) ∧
    (rebuild_index emb st).1.metadata.map Prod.fst
      = (st.documents.filter (fun p => !isDeletedIn st.metadata p.1)).map Prod.fst ∧
    (∃ vsAll, encodeAll emb (catChunks (st.documents.filter
        (fun p => !isDeletedIn st.metadata p.1))) = some vsAll ∧
      (rebuild_index emb st).1.index = vsAll) ∧
    rangesSeq (rebuild_index emb st).1.metadata 0
      (st.documents.filter (fun p => !isDeletedIn st.metadata p.1)) ∧
    (∀ p ∈ (rebuild_index emb st).1.metadata, alGet p.2 "deleted" = none) ∧
    StoreInv emb (rebuild_index emb st).1 := by
  obtain ⟨hkeys, hndm, hndd, hdoc, hpair, hcov⟩ := hInv
  have hdocCons : ∀ q ∈ st.documents,
      q.2.chunks = split_text (preprocess q.2.text) 512 50 ∧
      q.2.chunk_count = q.2.chunks.length ∧
      q.2.processed_text = preprocess q.2.text := by
    intro q hq
    have hhd : alHas st.documents q.1 = true :=
      (alHas_eq_mem_keys _ _).mpr (List.mem_map.mpr ⟨q, hq, rfl⟩)
    have hhm : alHas st.metadata q.1 = true := by rw [hkeys]; exact hhd
    obtain ⟨mq, hmq⟩ := (alHas_iff_get _ _).mp hhm
    obtain ⟨dd2, hdd2, hch, hcc, hpt, _⟩ := hdoc (q.1, mq) (alGet_mem _ _ _ hmq)
    have hqd : alGet st.documents q.1 = some q.2 := alGet_of_mem_nodup hndd hq
    have heq2 : dd2 = q.2 := by
      rw [hqd] at hdd2
      exact (Option.some.inj hdd2).symm
    rw [heq2] at hch
    rw [heq2] at hcc
    rw [heq2] at hpt
    exact ⟨hch, hcc, hpt⟩
  have hall : (st.documents.filter (fun p => !isDeletedIn st.metadata p.1)).all
      (fun p => alHas st.metadata p.1) = true := by
    rw [List.all_eq_true]
    intro p hp
    have hpd : p ∈ st.documents := (List.mem_filter.mp hp).1
    have hh : alHas st.documents p.1 = true :=
      (alHas_eq_mem_keys _ _).mpr (List.mem_map.mpr ⟨p, hpd, rfl⟩)
    rw [hkeys]
    exact hh
  have hcomp : ((fun (t : String × DocData × Dict) => (t.1, t.2.1)) ∘
      (fun (p : String × DocData) =>
        (p.1, p.2, (alGet st.metadata p.1).getD []))) = id := rfl
  have hcomp1 : ((fun (t : String × DocData × Dict) => t.1) ∘
      (fun (p : String × DocData) =>
        (p.1, p.2, (alGet st.metadata p.1).getD []))) = Prod.fst := rfl
  have hnd' : (((st.documents.filter (fun p => !isDeletedIn st.metadata p.1)).map
      (fun p => (p.1, p.2, (alGet st.metadata p.1).getD []))).map
        (fun t => t.1)).Nodup := by
    rw [List.map_map, hcomp1]
    exact List.Nodup.sublist (List.Sublist.map _ (List.filter_sublist _)) hndd
  have hcons' : ∀ t ∈ (st.documents.filter
      (fun p => !isDeletedIn st.metadata p.1)).map
        (fun p => (p.1, p.2, (alGet st.metadata p.1).getD [])),
      t.2.1.chunks = split_text (preprocess t.2.1.text) 512 50 ∧
      t.2.1.chunk_count = t.2.1.chunks.length ∧
      t.2.1.processed_text = preprocess t.2.1.text := by
    intro t ht
    obtain ⟨p, hp, rfl⟩ := List.mem_map.mp ht
    exact hdocCons p (List.mem_filter.mp hp).1
  have hmid0 : RebuildMid emb ⟨[], [], [], [], st.metadata⟩ := by
    refine ⟨List.nodup_nil, rfl, ?_, List.Pairwise.nil, ?_, ?_⟩
    · intro p hp
      exact absurd hp (List.not_mem_nil p)
    · intro pos h
      exact absurd h (by simp)
    · intro p hp
      exact absurd hp (List.not_mem_nil p)
  obtain ⟨h1, hmidr, hdocs, hkeysr, ⟨vsAll, hencAll, hidx⟩, hstab, hseq⟩ :=
    rebuild_loop_spec emb htot
      ((st.documents.filter (fun p => !isDeletedIn st.metadata p.1)).map
        (fun p => (p.1, p.2, (alGet st.metadata p.1).getD [])))
      ⟨[], [], [], [], st.metadata⟩ hnd' (fun t _ => rfl) hcons' hmid0
  have hunf : rebuild_index emb st =
      (⟨(rebuild_loop emb ⟨[], [], [], [], st.metadata⟩
          ((st.documents.filter (fun p => !isDeletedIn st.metadata p.1)).map
            (fun p => (p.1, p.2, (alGet st.metadata p.1).getD [])))).1.index,
        (rebuild_loop emb ⟨[], [], [], [], st.metadata⟩
          ((st.documents.filter (fun p => !isDeletedIn st.metadata p.1)).map
            (fun p => (p.1, p.2, (alGet st.metadata p.1).getD [])))).1.new_metadata,
        (rebuild_loop emb ⟨[], [], [], [], st.metadata⟩
          ((st.documents.filter (fun p => !isDeletedIn st.metadata p.1)).map
            (fun p => (p.1, p.2, (alGet st.metadata p.1).getD [])))).1.new_documents,
        (rebuild_loop emb ⟨[], [], [], [], st.metadata⟩
          ((st.documents.filter (fun p => !isDeletedIn st.metadata p.1)).map
            (fun p => (p.1, p.2, (alGet st.metadata p.1).getD [])))).1.id_to_index⟩,
       true) := by
    simp only [rebuild_index, hall, h1, eq_self_iff_true, if_true]
  simp only [List.nil_append, List.map_map] at hdocs hkeysr hseq
  rw [hcomp, List.map_id] at hdocs
  rw [hcomp1] at hkeysr
  rw [hcomp, List.map_id] at hseq
  have hchunks : chunksFlat ((st.documents.filter
      (fun p => !isDeletedIn st.metadata p.1)).map
        (fun p => (p.1, p.2, (alGet st.metadata p.1).getD []))) =
      catChunks (st.documents.filter (fun p => !isDeletedIn st.metadata p.1)) :=
    chunksFlat_map (fun p => (alGet st.metadata p.1).getD []) _
  rw [hchunks] at hencAll
  have hnddr : ((rebuild_loop emb ⟨[], [], [], [], st.metadata⟩
      ((st.documents.filter (fun p => !isDeletedIn st.metadata p.1)).map
        (fun p => (p.1, p.2, (alGet st.metadata p.1).getD [])))).1.new_documents.map
          Prod.fst).Nodup := by
    have h9 := hmidr.ndKeys
    rw [← hmidr.keysEq] at h9
    exact h9
  refine ⟨by rw [hunf], ?_, ?_, ⟨vsAll, hencAll, ?_⟩, ?_, ?_, ?_, ?_, ?_, ?_, ?_, ?_⟩
  · rw [hunf]
    exact hdocs
  · rw [hunf]
    exact hkeysr
  · rw [hunf]
    simp only [List.nil_append] at hidx
    exact hidx
  · rw [hunf]
    exact hseq
  · rw [hunf]
    exact hmidr.clean
  · rw [hunf]
    intro id
    exact (alHas_of_keys_eq hmidr.keysEq id).symm
  · rw [hunf]
    exact hmidr.ndKeys
  · rw [hunf]
    exact hnddr
  · rw [hunf]
    exact hmidr.docsOK
  · rw [hunf]
    exact hmidr.disj
  · rw [hunf]
    exact hmidr.cover

theorem StoreInv_empty (emb : String → Option (List Int)) : StoreInv emb St.empty := by
  refine ⟨fun _ => rfl, List.nodup_nil, List.nodup_nil, ?_, List.Pairwise.nil, ?_⟩
  · intro p hp
    exact absurd hp (List.not_mem_nil p)
  · intro pos h
    exact absurd h (by simp [St.empty])

theorem StoreInv_rebuild (emb : String → Option (List Int)) (htot : EmbTotal emb)
    (st : St) (hInv : StoreInv emb st) : StoreInv emb (rebuild_index emb st).1 :=
  (rebuild_index_spec emb htot st hInv).2.2.2.2.2.2

theorem StoreInv_step (emb : String → Option (List Int)) (htot : EmbTotal emb)
    (st : St) (op : Op) (hInv : StoreInv emb st) : StoreInv emb (stepOp emb st op) := by
  cases op with
  | add id t m now => exact StoreInv_add emb htot st id t m now hInv
  | del id now => exact StoreInv_delete emb st id now hInv
  | rebuild => exact StoreInv_rebuild emb htot st hInv

/-- The store invariant holds after every operation sequence from the empty
store (with a never-failing embedding backend). -/
theorem StoreInv_run (emb : String → Option (List Int)) (htot : EmbTotal emb)
    (ops : List Op) : StoreInv emb (run emb ops) := by
  have hgen : ∀ (l : List Op) (st : St), StoreInv emb st →
      StoreInv emb (l.foldl (stepOp emb) st) := by
    intro l
    induction l with
    | nil => intro st h; exact h
    | cons op rest ih =>
      intro st h
      exact ih _ (StoreInv_step emb htot st op h)
  exact hgen ops St.empty (StoreInv_empty emb)

/-- C4: after every sequence of add_document / delete_document /
rebuild_index operations starting from the empty store (embedding backend
never failing), the recorded `[start_index, end_index]` ranges are pairwise
disjoint, each document's range holds exactly that document's chunk
embeddings in chunk order, and the union of the ranges of live plus
tombstoned documents exactly covers `[0, index size)`. -/
theorem position_ranges_invariant (emb : String → Option (List Int))
    (htot : EmbTotal emb) (ops : List Op) :
    (run emb ops).metadata.Pairwise (fun a b => Disj a.2 b.2) ∧
    (∀ p ∈ (run emb ops).metadata,
      docRangeOK emb (run emb ops).index (run emb ops).documents p.1 p.2) ∧
    (∀ pos : Nat, pos < (run emb ops).index.length ↔
      ∃ q ∈ (run emb ops).metadata, rangeMem q.2 pos) := by
  obtain ⟨hk, hnm, hnd, hdoc, hpair, hcov⟩ := StoreInv_run emb htot ops
  refine ⟨hpair, hdoc, ?_⟩
  intro pos
  constructor
  · exact hcov pos
  · rintro ⟨q, hq, hS, hE⟩
    obtain ⟨dd, _, _, _, _, s, hS0, hE0, hb, _⟩ := hdoc q hq
    rw [hS0] at hS
    rw [hE0] at hE
    omega

theorem position_ranges_invariant_witness :
    EmbTotal embC ∧
    ((run embC [Op.add "d1" "hello" none "t0", Op.add "d2" "big news" none "t1",
        Op.del "d1" "t2", Op.rebuild]).metadata.Pairwise (fun a b => Disj a.2 b.2) ∧
     (∀ p ∈ (run embC [Op.add "d1" "hello" none "t0",
          Op.add "d2" "big news" none "t1", Op.del "d1" "t2",
          Op.rebuild]).metadata,
        docRangeOK embC
          (run embC [Op.add "d1" "hello" none "t0",
            Op.add "d2" "big news" none "t1", Op.del "d1" "t2",
            Op.rebuild]).index
          (run embC [Op.add "d1" "hello" none "t0",
            Op.add "d2" "big news" none "t1", Op.del "d1" "t2",
            Op.rebuild]).documents p.1 p.2) ∧
     (∀ pos : Nat, pos < (run embC [Op.add "d1" "hello" none "t0",
          Op.add "d2" "big news" none "t1", Op.del "d1" "t2",
          Op.rebuild]).index.length ↔
        ∃ q ∈ (run embC [Op.add "d1" "hello" none "t0",
          Op.add "d2" "big news" none "t1", Op.del "d1" "t2",
          Op.rebuild]).metadata, rangeMem q.2 pos)) :=
  ⟨fun _ => rfl,
    position_ranges_invariant embC (fun _ => rfl)
      [Op.add "d1" "hello" none "t0", Op.add "d2" "big news" none "t1",
        Op.del "d1" "t2", Op.rebuild]⟩

/-- In an invariant-satisfying store, every cataloged document's cached
chunks are the chunker applied to the normalizer's output on its raw text. -/
theorem docs_chunk_consistent (emb : String → Option (List Int)) (st : St)
    (hInv : StoreInv emb st) :
    ∀ q ∈ st.documents, q.2.chunks = split_text (preprocess q.2.text) 512 50 := by
  obtain ⟨hkeys, hndm, hndd, hdoc, _, _⟩ := hInv
  intro q hq
  have hhd : alHas st.documents q.1 = true :=
    (alHas_eq_mem_keys _ _).mpr (List.mem_map.mpr ⟨q, hq, rfl⟩)
  have hhm : alHas st.metadata q.1 = true := by rw [hkeys]; exact hhd
  obtain ⟨mq, hmq⟩ := (alHas_iff_get _ _).mp hhm
  obtain ⟨dd2, hdd2, hch, _, _, _⟩ := hdoc (q.1, mq) (alGet_mem _ _ _ hmq)
  have hqd : alGet st.documents q.1 = some q.2 := alGet_of_mem_nodup hndd hq
  have heq2 : dd2 = q.2 := by
    rw [hqd] at hdd2
    exact (Option.some.inj hdd2).symm
  rw [heq2] at hch
  exact hch

/-- C8: rebuild_index keeps exactly the non-tombstoned documents in catalog
order, re-chunks each from its stored raw text, re-embeds those chunks into
a fresh index (the new index is exactly their embeddings in order), assigns
new contiguous position ranges from 0, and discards tombstoned documents
(their ids are gone and no tombstone marks survive). -/
theorem rebuild_reembeds_and_discards (emb : String → Option (List Int))
    (htot : EmbTotal emb) (st : St) (hInv : StoreInv emb st) :
    (rebuild_index emb st).2 = true ∧
    (rebuild_index emb st).1.documents
      = st.documents.filter (fun p => !isDeletedIn st.metadata p.1) ∧
    (∀ p ∈ (rebuild_index emb st).1.documents,
      p.2.chunks = split_text (preprocess p.2.text) 512 50) ∧
    (∃ vsAll, encodeAll emb (catChunks ((rebuild_index emb st).1.documents))
        = some vsAll ∧
      (rebuild_index emb st).1.index = vsAll) ∧
    rangesSeq (rebuild_index emb st).1.metadata 0
      ((rebuild_index emb st).1.documents) ∧
    (∀ id, isDeletedIn st.metadata id = true →
      alHas (rebuild_index emb st).1.documents id = false) ∧
    (∀ p ∈ (rebuild_index emb st).1.metadata, alGet p.2 "deleted" = none) := by
  obtain ⟨h1, h2, h3, h4, h5, h6, hInv'⟩ := rebuild_index_spec emb htot st hInv
  refine ⟨h1, h2, ?_, ?_, ?_, ?_, h6⟩
  · rw [h2]
    intro p hp
    exact docs_chunk_consistent emb st hInv p (List.mem_filter.mp hp).1
  · rw [h2]
    exact h4
  · rw [h2]
    exact h5
  · intro id hdel
    by_contra hh
    rw [Bool.not_eq_false] at hh
    rw [alHas_eq_mem_keys, h2] at hh
    obtain ⟨p, hp, hpid⟩ := List.mem_map.mp hh
    have hcond := (List.mem_filter.mp hp).2
    rw [hpid] at hcond
    rw [hdel] at hcond
    cases hcond

theorem rebuild_reembeds_and_discards_witness :
    EmbTotal embC ∧ StoreInv embC stOne ∧
    (rebuild_index embC stOne).2 = true ∧
    (rebuild_index embC stOne).1.documents
      = stOne.documents.filter (fun p => !isDeletedIn stOne.metadata p.1) ∧
    (∀ p ∈ (rebuild_index embC stOne).1.documents,
      p.2.chunks = split_text (preprocess p.2.text) 512 50) := by
  have hInv1 : StoreInv embC stOne :=
    StoreInv_add embC (fun _ => rfl) St.empty "d1" "hello" none "t0"
      (StoreInv_empty embC)
  have h := rebuild_reembeds_and_discards embC (fun _ => rfl) stOne hInv1
  exact ⟨fun _ => rfl, hInv1, h.1, h.2.1, h.2.2.1⟩
